import Mathlib

set_option maxHeartbeats 1000000

/-!
Verification development for the polymer-bundler flattening engine
(src/src/vulcan.ts).  The DOM tree, the import tree and the operations of
the `Vulcan` prototype are embedded as executable Lean definitions; the
theorems at the end of the file settle the specification claims.
-/

namespace PolymerBundler

/-- DOM tree node, mirroring the parse5/dom5 AST used by vulcan.ts.
Element nodes carry a numeric id standing for JavaScript object identity
(the code addresses nodes through references such as `thisImport` and
`moveTarget`); text, comment, fragment and document nodes are only ever
addressed structurally by the code under verification.  The
`hydrolysisInlined` field models the `__hydrolysisInlined` expando read by
`fixFakeExternalScripts`. -/
inductive Node where
  | element (id : Nat) (tag : String) (attrs : List (String × String))
      (hydrolysisInlined : Option String) (children : List Node)
  | text (content : String)
  | comment (data : String)
  | fragment (children : List Node)
  | document (children : List Node)
deriving Repr

/-- Children of a node (empty for text and comment nodes). -/
def childrenOf : Node → List Node
  | .element _ _ _ _ cs => cs
  | .fragment cs => cs
  | .document cs => cs
  | _ => []

/-- Replace the child list of a node (no-op on text and comment nodes). -/
def withChildren : Node → List Node → Node
  | .element i t a h _, cs => .element i t a h cs
  | .fragment _, cs => .fragment cs
  | .document _, cs => .document cs
  | n, _ => n

/-- True when the node is the element with the given identity. -/
def hasId (t : Nat) : Node → Bool
  | .element i _ _ _ _ => i == t
  | _ => false

def isTextNode : Node → Bool
  | .text _ => true
  | _ => false

def isCommentNode : Node → Bool
  | .comment _ => true
  | _ => false

/-- dom5.isDocumentFragment. -/
def isDocFragment : Node → Bool
  | .fragment _ => true
  | _ => false

def tagIs (t : String) : Node → Bool
  | .element _ tg _ _ _ => tg == t
  | _ => false

/-- dom5.getAttribute: first attribute with the given name. -/
def getAttr (n : Node) (name : String) : Option String :=
  match n with
  | .element _ _ attrs _ _ => (attrs.find? (fun p => p.1 == name)).map Prod.snd
  | _ => none

def hasAttr (n : Node) (name : String) : Bool :=
  (getAttr n name).isSome

/-- dom5.setAttribute: overwrite an existing attribute or append a new one. -/
def setAttr : Node → String → String → Node
  | .element i t attrs h cs, name, v =>
      .element i t
        (if attrs.any (fun p => p.1 == name)
          then attrs.map (fun p => if p.1 == name then (name, v) else p)
          else attrs ++ [(name, v)]) h cs
  | n, _, _ => n

/-- dom5.removeAttribute. -/
def removeAttr : Node → String → Node
  | .element i t attrs h cs, name => .element i t (attrs.filter (fun p => p.1 != name)) h cs
  | n, _ => n

/-- dom5.setTextContent on an element: children become a single text node. -/
def setTextContentStr (s : String) (n : Node) : Node :=
  withChildren n [Node.text s]

/-- Substring search over character lists: JavaScript `haystack.search(pat) >= 0`
for a literal pattern (the configuration patterns are applied with
`String.prototype.search`, i.e. a containment test, not a full match). -/
def listPre : List Char → List Char → Bool
  | [], _ => true
  | _ :: _, [] => false
  | a :: as, b :: bs => a == b && listPre as bs

def subSearch : List Char → List Char → Bool
  | p, [] => listPre p []
  | p, c :: rest => listPre p (c :: rest) || subSearch p rest

def strSearch (pat s : String) : Bool :=
  subSearch pat.data s.data

/-- `p` is a suffix of `l`. -/
def listSuffix (p : List Char) : List Char → Bool
  | [] => p == []
  | c :: rest => (p == c :: rest) || listSuffix p rest

def strEndsWith (s suff : String) : Bool :=
  listSuffix suff.data s.data

def strStartsWith (s pre : String) : Bool :=
  listPre pre.data s.data

/-- isBlankTextNode (vulcan.ts): a text node with no non-whitespace character. -/
def isBlankTextNode : Node → Bool
  | .text s => !(s.data.any (fun c => !c.isWhitespace))
  | _ => false

/-- isLicenseComment (vulcan.ts): comment whose text contains `@license`. -/
def hasLicenseMarker (s : String) : Bool :=
  strSearch "@license" s

def isLicenseComment : Node → Bool
  | .comment d => hasLicenseMarker d
  | _ => false

/-- Modelled from the spec: `constants.EXTERNAL_URL` (the constants module is
not under src/), the built-in external-protocol pattern an href is tested
against before the user exclusion patterns. -/
def EXTERNAL_URL (href : String) : Bool :=
  strStartsWith href "http://" || strStartsWith href "https://" || strStartsWith href "//"

/-- Modelled from the spec: `constants.OLD_POLYMER` (the constants module is
not under src/), the message prefix of the fatal legacy-dialect error. -/
def OLD_POLYMER : String :=
  "Old Polymer detected. Please upgrade to Polymer 1.0."

/-- Construction configuration of the Vulcan class (vulcan.ts constructor). -/
structure Config where
  implicitStrip : Bool
  addedImports : List String
  excludes : List String
  stripExcludes : List String
  stripComments : Bool
  enableCssInlining : Bool
  enableScriptInlining : Bool
deriving Repr

/-- Import tree handed over by the analyzer: one resolved document with its
href, its AST (`tree.html.ast`), the import site nodes (`tree.html.import`,
referenced by element id) and the subtrees of the import edges, in document
order.  An absent href marks a previously resolved duplicate edge. -/
inductive ImportTree where
  | mk (href : Option String) (html : Node) (importNodeIds : List Nat)
      (imports : List ImportTree)

def ImportTree.href : ImportTree → Option String
  | .mk h _ _ _ => h

def ImportTree.html : ImportTree → Node
  | .mk _ d _ _ => d

def ImportTree.importNodeIds : ImportTree → List Nat
  | .mk _ _ ns _ => ns

def ImportTree.imports : ImportTree → List ImportTree
  | .mk _ _ _ ts => ts

/-- JavaScript string coercion of a possibly absent href. -/
def hrefStr : Option String → String
  | none => ""
  | some s => s

/-- A JavaScript-falsy href: absent, or the empty string. -/
def falsyHref : Option String → Bool
  | none => true
  | some s => s == ""

/-- isDuplicateImport (vulcan.ts): `!importMeta.href`. -/
def isDuplicateImport (im : ImportTree) : Bool :=
  falsyHref im.href

/-- isExcludedHref (vulcan.ts): external URL, or matched by one of the
user exclusion patterns via substring search. -/
def isExcludedHref (cfg : Config) (href : String) : Bool :=
  if EXTERNAL_URL href then true
  else cfg.excludes.any (fun r => strSearch r href)

/-- isExcludedImport (vulcan.ts). -/
def isExcludedImport (cfg : Config) (im : ImportTree) : Bool :=
  isExcludedHref cfg (hrefStr im.href)

/-- isStrippedImport (vulcan.ts): false for an empty stripExcludes list,
otherwise a substring-search match of the edge's href. -/
def isStrippedImport (cfg : Config) (im : ImportTree) : Bool :=
  if cfg.stripExcludes.isEmpty then false
  else cfg.stripExcludes.any (fun r => strSearch r (hrefStr im.href))

/-! Tree walking primitives of the dom5 capability. -/

mutual

/-- dom5.query: first node of the subtree (pre-order, including the root)
satisfying the predicate. -/
def query (p : Node → Bool) : Node → Option Node
  | n@(.element _ _ _ _ cs) => if p n then some n else queryList p cs
  | n@(.fragment cs) => if p n then some n else queryList p cs
  | n@(.document cs) => if p n then some n else queryList p cs
  | n@(.text _) => if p n then some n else none
  | n@(.comment _) => if p n then some n else none

def queryList (p : Node → Bool) : List Node → Option Node
  | [] => none
  | c :: cs =>
    match query p c with
    | some r => some r
    | none => queryList p cs

end

mutual

/-- dom5.nodeWalkAll: all nodes of the subtree satisfying the predicate,
in pre-order. -/
def nodeWalkAll (p : Node → Bool) : Node → List Node
  | n@(.element _ _ _ _ cs) => (if p n then [n] else []) ++ nodeWalkAllL p cs
  | n@(.fragment cs) => (if p n then [n] else []) ++ nodeWalkAllL p cs
  | n@(.document cs) => (if p n then [n] else []) ++ nodeWalkAllL p cs
  | n@(.text _) => if p n then [n] else []
  | n@(.comment _) => if p n then [n] else []

def nodeWalkAllL (p : Node → Bool) : List Node → List Node
  | [] => []
  | c :: cs => nodeWalkAll p c ++ nodeWalkAllL p cs

end

mutual

/-- Number of nodes of the subtree satisfying the predicate. -/
def countMatching (p : Node → Bool) : Node → Nat
  | n@(.element _ _ _ _ cs) => (if p n then 1 else 0) + countMatchingL p cs
  | n@(.fragment cs) => (if p n then 1 else 0) + countMatchingL p cs
  | n@(.document cs) => (if p n then 1 else 0) + countMatchingL p cs
  | n@(.text _) => if p n then 1 else 0
  | n@(.comment _) => if p n then 1 else 0

def countMatchingL (p : Node → Bool) : List Node → Nat
  | [] => 0
  | c :: cs => countMatching p c + countMatchingL p cs

end

/-- Whether the element with the given id occurs in the subtree. -/
def occursId (t : Nat) (n : Node) : Bool :=
  (query (hasId t) n).isSome

def findById (t : Nat) (n : Node) : Option Node :=
  query (hasId t) n

mutual

/-- ancestorWalk (vulcan.ts), tree-side view: some element with id `big`
has the element with id `small` in its subtree (ancestorWalk starts at the
node itself, so `big = small` on a present node counts). -/
def descendantOf (big small : Nat) : Node → Bool
  | n@(.element _ _ _ _ cs) => (hasId big n && occursId small n) || descendantOfL big small cs
  | .fragment cs => descendantOfL big small cs
  | .document cs => descendantOfL big small cs
  | .text _ => false
  | .comment _ => false

def descendantOfL (big small : Nat) : List Node → Bool
  | [] => false
  | c :: cs => descendantOf big small c || descendantOfL big small cs

end

mutual

/-- isTemplated (vulcan.ts), tree-side view: the element with id `t` occurs
at a position whose ancestor-or-self chain contains a document fragment.
The accumulator carries whether a fragment was passed on the way down. -/
def templatedGo (t : Nat) (acc : Bool) : Node → Bool
  | n@(.element _ _ _ _ cs) =>
      (hasId t n && (acc || isDocFragment n)) || templatedGoL t (acc || isDocFragment n) cs
  | n@(.fragment cs) =>
      (hasId t n && (acc || isDocFragment n)) || templatedGoL t (acc || isDocFragment n) cs
  | n@(.document cs) =>
      (hasId t n && (acc || isDocFragment n)) || templatedGoL t (acc || isDocFragment n) cs
  | n@(.text _) => hasId t n && (acc || isDocFragment n)
  | n@(.comment _) => hasId t n && (acc || isDocFragment n)

def templatedGoL (t : Nat) (acc : Bool) : List Node → Bool
  | [] => false
  | c :: cs => templatedGo t acc c || templatedGoL t acc cs

end

def isTemplatedIn (t : Nat) (doc : Node) : Bool :=
  templatedGo t false doc

mutual

/-- First node of the subtree whose child list contains a node satisfying
the predicate, i.e. the parent of the first pre-order match (used for
`importHead.parentNode`). -/
def findParentOfFirst (p : Node → Bool) : Node → Option Node
  | n@(.element _ _ _ _ cs) => if cs.any p then some n else findParentOfFirstL p cs
  | n@(.fragment cs) => if cs.any p then some n else findParentOfFirstL p cs
  | n@(.document cs) => if cs.any p then some n else findParentOfFirstL p cs
  | .text _ => none
  | .comment _ => none

def findParentOfFirstL (p : Node → Bool) : List Node → Option Node
  | [] => none
  | c :: cs =>
    match findParentOfFirst p c with
    | some r => some r
    | none => findParentOfFirstL p cs

end

mutual

/-- Apply `f` to the first node of the subtree (pre-order) satisfying the
predicate; the boolean reports whether a match was found. -/
def modifyFirstGo (p : Node → Bool) (f : Node → Node) : Node → (Node × Bool)
  | n@(.element i t a h cs) =>
    if p n then (f n, true)
    else
      let r := modifyFirstList p f cs
      (.element i t a h r.1, r.2)
  | n@(.fragment cs) =>
    if p n then (f n, true)
    else
      let r := modifyFirstList p f cs
      (.fragment r.1, r.2)
  | n@(.document cs) =>
    if p n then (f n, true)
    else
      let r := modifyFirstList p f cs
      (.document r.1, r.2)
  | n@(.text _) => if p n then (f n, true) else (n, false)
  | n@(.comment _) => if p n then (f n, true) else (n, false)

def modifyFirstList (p : Node → Bool) (f : Node → Node) : List Node → (List Node × Bool)
  | [] => ([], false)
  | c :: cs =>
    let r := modifyFirstGo p f c
    if r.2 then (r.1 :: cs, true)
    else
      let rs := modifyFirstList p f cs
      (c :: rs.1, rs.2)

end

def modifyFirst (p : Node → Bool) (f : Node → Node) (n : Node) : Node :=
  (modifyFirstGo p f n).1

/-- Splice of a replacement at a removal site. -/
def replList : Option Node → List Node
  | some r => [r]
  | none => []

mutual

/-- removeElementAndNewline (vulcan.ts): remove the element with id `t`
from its parent's child list, dropping an immediately following blank text
node, and splice in the replacement (if any) at its position. -/
def removeEAN (t : Nat) (repl : Option Node) : Node → Node
  | .element i tg a h cs => .element i tg a h (removeEANList t repl cs)
  | .fragment cs => .fragment (removeEANList t repl cs)
  | .document cs => .document (removeEANList t repl cs)
  | .text s => .text s
  | .comment s => .comment s

def removeEANList (t : Nat) (repl : Option Node) : List Node → List Node
  | [] => []
  | c :: cs =>
    if hasId t c then
      match cs with
      | [] => replList repl
      | n :: cs' =>
        if isBlankTextNode n then replList repl ++ removeEANList t repl cs'
        else replList repl ++ removeEANList t repl (n :: cs')
    else removeEAN t repl c :: removeEANList t repl cs

end

mutual

/-- dom5.remove of the element with id `t` (no blank-text cleanup). -/
def removeNode (t : Nat) : Node → Node
  | .element i tg a h cs => .element i tg a h (removeNodeList t cs)
  | .fragment cs => .fragment (removeNodeList t cs)
  | .document cs => .document (removeNodeList t cs)
  | .text s => .text s
  | .comment s => .comment s

def removeNodeList (t : Nat) : List Node → List Node
  | [] => []
  | c :: cs =>
    if hasId t c then removeNodeList t cs
    else removeNode t c :: removeNodeList t cs

end

mutual

/-- Remove every comment node of the subtree (the strip-comments stage
removes each walked comment via dom5.remove). -/
def removeComments : Node → Node
  | .element i tg a h cs => .element i tg a h (removeCommentsL cs)
  | .fragment cs => .fragment (removeCommentsL cs)
  | .document cs => .document (removeCommentsL cs)
  | .text s => .text s
  | .comment s => .comment s

def removeCommentsL : List Node → List Node
  | [] => []
  | c :: cs =>
    if isCommentNode c then removeCommentsL cs
    else removeComments c :: removeCommentsL cs

end

mutual

/-- Apply the local edit `f` at every node satisfying `p` (matched nodes are
edited in place and not descended into; the edits performed by the code are
local to the matched element). -/
def editMatching (p : Node → Bool) (f : Node → Node) : Node → Node
  | n@(.element i t a h cs) => if p n then f n else .element i t a h (editMatchingL p f cs)
  | n@(.fragment cs) => if p n then f n else .fragment (editMatchingL p f cs)
  | n@(.document cs) => if p n then f n else .document (editMatchingL p f cs)
  | n@(.text _) => if p n then f n else n
  | n@(.comment _) => if p n then f n else n

def editMatchingL (p : Node → Bool) (f : Node → Node) : List Node → List Node
  | [] => []
  | c :: cs => editMatching p f c :: editMatchingL p f cs

end

/-- prepend (vulcan.ts): insert as first child. -/
def prependChild (c : Node) (parent : Node) : Node :=
  withChildren parent (c :: childrenOf parent)

def appendChild (c : Node) (parent : Node) : Node :=
  withChildren parent (childrenOf parent ++ [c])

/-! Matchers.  The matchers module of the repository is not under src/, so
the predicates below are modelled from the spec's descriptions of the nodes
each pipeline step selects. -/

/-- Modelled from the spec: `matchers.polymerElement` (matchers module not
under src/), markup recognized as the unsupported legacy component dialect:
a `polymer-element` element. -/
def polymerElementMatcher (n : Node) : Bool :=
  tagIs "polymer-element" n

/-- Modelled from the spec: `matchers.polymerExternalStyle` (matchers module
not under src/), the component-external-style convention: a css-typed
link of the import kind. -/
def polymerExternalStyle (n : Node) : Bool :=
  tagIs "link" n && getAttr n "rel" == some "import" && getAttr n "type" == some "css"

/-- moveToBodyMatcher (vulcan.ts): a script or link element that is not a
component-external style. -/
def moveToBodyMatcher (n : Node) : Bool :=
  (tagIs "script" n || tagIs "link" n) && !polymerExternalStyle n

/-- Modelled from the spec: `matchers.head` / `matchers.body` (matchers
module not under src/). -/
def isHeadEl (n : Node) : Bool := tagIs "head" n

def isBodyEl (n : Node) : Bool := tagIs "body" n

/-- Modelled from the spec: `matchers.meta` (matchers module not under
src/), a `meta` element carrying a charset attribute. -/
def isMetaCharset (n : Node) : Bool :=
  tagIs "meta" n && hasAttr n "charset"

/-- Modelled from the spec: `matchers.JS_SRC` (matchers module not under
src/), a script element with an external source attribute. -/
def isJsSrcScript (n : Node) : Bool :=
  tagIs "script" n && hasAttr n "src"

/-- Modelled from the spec: `matchers.JS_INLINE` (matchers module not under
src/), an inline script element. -/
def isJsInline (n : Node) : Bool :=
  tagIs "script" n && !hasAttr n "src"

/-- Modelled from the spec: `matchers.ALL_CSS_LINK` (matchers module not
under src/), a stylesheet link or a component-external style link. -/
def isAllCssLink (n : Node) : Bool :=
  (tagIs "link" n && getAttr n "rel" == some "stylesheet" && hasAttr n "href")
    || (polymerExternalStyle n && hasAttr n "href")

def hydroOf : Node → Option String
  | .element _ _ _ h _ => h
  | _ => none

/-- hasOldPolymer (vulcan.ts). -/
def hasOldPolymer (doc : Node) : Bool :=
  (query polymerElementMatcher doc).isSome

/-- fixFakeExternalScripts (vulcan.ts): restore the recorded external source
of inlined scripts and clear their text content. -/
def fixFakeExternalScripts (doc : Node) : Node :=
  editMatching (fun n => isJsInline n && (hydroOf n).isSome)
    (fun n => setTextContentStr "" (setAttr n "src" (hrefStr (hydroOf n)))) doc

/-- The collaborator capabilities consumed by the engine, together with the
configuration: the path resolver (acid, resolvePaths, urlToPath, rewriteURL
— URL rewriting rules are outside this core), url.resolve, the resource
loader and the UglifyJS string encoder. -/
structure Env where
  cfg : Config
  urlToPath : String → String
  acid : Node → String → Node
  resolvePaths : Node → String → String → Node
  urlResolve : String → String → String
  loader : String → Option String
  enc : String → String
  rewriteURL : String → String → String → String

/-- hide (vulcan.ts): wrap the element with id `site` in a fresh hidden
div carrying the authorship marker, at the element's position
(removeElementAndNewline with the wrapper as replacement, then the node is
appended into the wrapper). -/
def hide (hid site : Nat) (doc : Node) : Node :=
  match findById site doc with
  | some sn =>
      removeEAN site
        (some (Node.element hid "div" [("hidden", ""), ("by-vulcanize", "")] none [sn])) doc
  | none => doc

/-- The moved-to-body pass over the head children: each child matched by
moveToBodyMatcher is removed (with its trailing blank text node) and
collected, in order, preserving the sequential removals of the source. -/
def pullMoveNodes : List Node → (List Node × List Node)
  | [] => ([], [])
  | c :: cs =>
    if moveToBodyMatcher c then
      match cs with
      | [] => ([], [c])
      | n :: cs' =>
        if isBlankTextNode n then
          let r := pullMoveNodes cs'
          (r.1, c :: r.2)
        else
          let r := pullMoveNodes (n :: cs')
          (r.1, c :: r.2)
    else
      let r := pullMoveNodes cs
      (c :: r.1, r.2)

mutual

/-- flatten (vulcan.ts): recursive, depth-first merge of an import tree
into a single document.  Fresh element ids are drawn from the counter
`nid`.  Failures of the source (the legacy-dialect throw, and accesses to a
missing head or body) surface as `Except.error`. -/
def flatten (env : Env) : ImportTree → Bool → Nat → Except String (Node × Nat)
  | .mk href html importNodeIds imports, isMainDoc, nid =>
    if hasOldPolymer html then
      .error (OLD_POLYMER ++ " File: " ++ env.urlToPath (hrefStr href))
    else
      let doc := env.acid (fixFakeExternalScripts html) (hrefStr href)
      match query isHeadEl doc, query isBodyEl doc with
      | some headN, some _ =>
        let mtid := nid
        let nid1 := if isMainDoc then nid + 1 else nid
        let moved := pullMoveNodes (childrenOf headN)
        let moveTarget :=
          if isMainDoc then
            Node.element mtid "div" [("hidden", ""), ("by-vulcanize", "")] none moved.2
          else Node.fragment moved.2
        let doc1 := modifyFirst isHeadEl (fun h => withChildren h moved.1) doc
        let doc2 := modifyFirst isBodyEl (prependChild moveTarget) doc1
        match processImports env (hrefStr href) isMainDoc mtid doc2 imports importNodeIds nid1 with
        | .error e => .error e
        | .ok r =>
          if isMainDoc then
            match findById mtid r.1 with
            | some mt => if (childrenOf mt).isEmpty then .ok (removeNode mtid r.1, r.2) else .ok r
            | none => .ok r
          else .ok r
      | _, _ => .error "flatten: document has no head or no body"

/-- The import loop of flatten (vulcan.ts lines 210-251): for each import
edge and its import site node, in document order, elide duplicates and
strip-excluded edges, skip excluded and templated edges, and otherwise
recurse, merge the imported head/body children (license comments first)
into a fragment and substitute it for the import site, hiding the site
first in the main document when it is not already under the move target. -/
def processImports (env : Env) (treeHref : String) (isMainDoc : Bool) (mtid : Nat) :
    Node → List ImportTree → List Nat → Nat → Except String (Node × Nat)
  | doc, [], _, nid => .ok (doc, nid)
  | _, _ :: _, [], _ => .error "flatten: import node list exhausted"
  | doc, im :: ims, site :: sites, nid =>
    if isDuplicateImport im || isStrippedImport env.cfg im then
      processImports env treeHref isMainDoc mtid (removeEAN site none doc) ims sites nid
    else if isExcludedImport env.cfg im then
      processImports env treeHref isMainDoc mtid doc ims sites nid
    else if isTemplatedIn site doc then
      processImports env treeHref isMainDoc mtid doc ims sites nid
    else
      match flatten env im false nid with
      | .error e => .error e
      | .ok r =>
        let idoc := env.resolvePaths r.1 (hrefStr im.href) treeHref
        match query isHeadEl idoc, query isBodyEl idoc with
        | some ih, some ib =>
          let htmlChildren :=
            match findParentOfFirst isHeadEl idoc with
            | some p => childrenOf p
            | none => []
          let licenseComments := (childrenOf idoc ++ htmlChildren).filter isLicenseComment
          let bodyFragment :=
            Node.fragment (licenseComments ++ childrenOf ih ++ childrenOf ib)
          if isMainDoc && !descendantOf mtid site doc then
            processImports env treeHref isMainDoc mtid
              (removeEAN site (some bodyFragment) (hide r.2 site doc)) ims sites (r.2 + 1)
          else
            processImports env treeHref isMainDoc mtid
              (removeEAN site (some bodyFragment) doc) ims sites r.2
        | _, _ => .error "flatten: import document has no head or no body"

end

/-! Pipeline stages of `_process` (vulcan.ts lines 395-458). -/

/-- prepend into the head queried from the document; the source crashes on
`prepend(null, _)` when the document has no head, surfaced as an error. -/
def prependToFirstHead (c : Node) (d : Node) : Except String Node :=
  if (query isHeadEl d).isSome then .ok (modifyFirst isHeadEl (prependChild c) d)
  else .error "prepend: document has no head"

/-- The added-imports loop (vulcan.ts lines 412-417): a fresh
`link[rel=import]` is prepended into head for every configured URL, in
order. -/
def addImportLink (href : String) (nid : Nat) : Node :=
  Node.element nid "link" [("rel", "import"), ("href", href)] none []

def addedImportsGo : List String → Node → Nat → Except String (Node × Nat)
  | [], d, nid => .ok (d, nid)
  | h :: rest, d, nid =>
    match prependToFirstHead (addImportLink h nid) d with
    | .error e => .error e
    | .ok d1 => addedImportsGo rest d1 (nid + 1)

/-- The meta-charset step of `_process` (vulcan.ts lines 409-422): the
presence of a charset meta is tested on the flattened document, the
added-import links are prepended, and a fresh `meta[charset=UTF-8]` is
prepended into head exactly when no charset meta was present. -/
def metaStage (cfg : Config) (d : Node) (nid : Nat) : Except String (Node × Nat) :=
  let metaPresent := (query isMetaCharset d).isSome
  match addedImportsGo cfg.addedImports d nid with
  | .error e => .error e
  | .ok r =>
    if metaPresent then .ok r
    else
      match prependToFirstHead (Node.element r.2 "meta" [("charset", "UTF-8")] none []) r.1 with
      | .error e => .error e
      | .ok d2 => .ok (d2, r.2 + 1)

/-- The per-script edit of inlineScripts (vulcan.ts lines 288-302): resolve
the source against the document href, leave policy-excluded sources
untouched, request the resource, and on non-empty content strip the source
attribute and set the text content to the encoded body; empty or falsy
content leaves the element unchanged. -/
def inlineScriptEdit (env : Env) (href : String) (n : Node) : Node :=
  match getAttr n "src" with
  | none => n
  | some src =>
    if isExcludedHref env.cfg src then n
    else
      match env.loader (env.urlResolve href src) with
      | none => n
      | some content =>
        if content == "" then n
        else setTextContentStr (env.enc content) (removeAttr n "src")

/-- inlineScripts (vulcan.ts): the edit applied at every external script.
The fetches are independent and each edit is local to its element, so the
concurrent join of the source is the simultaneous application. -/
def inlineScriptsStage (env : Env) (href : String) (d : Node) : Node :=
  editMatching isJsSrcScript (inlineScriptEdit env href) d

/-- The style element built for a fetched stylesheet (vulcan.ts lines
325-330): URL-rewritten content, wrapped in a media block when the link
carried a non-empty media attribute. -/
def buildStyle (env : Env) (href uri content media : String) (sid : Nat) : Node :=
  let c1 := env.rewriteURL uri href content
  let c2 := if media == "" then c1 else "@media " ++ media ++ " \x7b" ++ c1 ++ "\x7d"
  Node.element sid "style" [] none [Node.text ("\n" ++ c2 ++ "\n")]

/-- Outcome of one css link (vulcan.ts lines 311-352): kept as is, replaced
in place by its style, or (for a component-external style owned by a
dom-module) removed with the style handed to the enclosing dom-module. -/
inductive CssLinkResult where
  | keep
  | replace (style : Node)
  | collect (style : Node)

def cssLinkOutcome (env : Env) (href : String) (inDM : Bool) (n : Node) (nid : Nat) :
    CssLinkResult × Nat :=
  match getAttr n "href" with
  | none => (.keep, nid)
  | some src =>
    if isExcludedHref env.cfg src then (.keep, nid)
    else
      match env.loader (env.urlResolve href src) with
      | none => (.keep, nid)
      | some content =>
        if content == "" then (.keep, nid)
        else
          let style :=
            buildStyle env href (env.urlResolve href src) content
              (hrefStr (getAttr n "media")) nid
          if polymerExternalStyle n then
            if inDM then (.collect style, nid + 1) else (.keep, nid + 1)
          else (.replace style, nid + 1)

def isTemplateEl (n : Node) : Bool := tagIs "template" n

def isDomModuleEl (n : Node) : Bool := tagIs "dom-module" n

/-- Attach the styles collected inside a dom-module to its template
(vulcan.ts lines 335-346): each style is prepended into the template's
content fragment, a fresh template being created and appended when the
dom-module has none; an existing template without a content fragment is the
source's crash. -/
def attachStyles (dm : Node) (styles : List Node) (nid : Nat) :
    Except String (Node × Nat) :=
  if styles.isEmpty then .ok (dm, nid)
  else
    match query isTemplateEl dm with
    | none =>
        .ok (appendChild (Node.element nid "template" [] none [Node.fragment styles.reverse]) dm,
          nid + 1)
    | some t =>
      match childrenOf t with
      | [] => .error "inlineCss: dom-module template has no content fragment"
      | _ :: _ =>
        .ok (modifyFirst isTemplateEl
          (fun tn =>
            match childrenOf tn with
            | c0 :: rest => withChildren tn (withChildren c0 (styles.reverse ++ childrenOf c0) :: rest)
            | [] => tn) dm, nid)

mutual

/-- inlineCss (vulcan.ts lines 309-356) as a single structural pass: every
css link is fetched and replaced (or left, when excluded or empty), and the
component-external styles inside a dom-module are relocated into that
dom-module's template.  The dom-module ownership is modelled from the spec
("the nearest enclosing styling-container"), the dom5 backward walk of the
source not being part of this core. -/
def cssNode (env : Env) (href : String) (inDM : Bool) :
    Node → Nat → Except String (Option Node × List Node × Nat)
  | n@(.element i t a h cs), nid =>
    if isAllCssLink n then
      match cssLinkOutcome env href inDM n nid with
      | (.keep, nid1) => .ok (some n, [], nid1)
      | (.replace style, nid1) => .ok (some style, [], nid1)
      | (.collect style, nid1) => .ok (none, [style], nid1)
    else if isDomModuleEl n then
      match cssChildren env href true cs nid with
      | .error e => .error e
      | .ok r =>
        match attachStyles (Node.element i t a h r.1) r.2.1 r.2.2 with
        | .error e => .error e
        | .ok r2 => .ok (some r2.1, [], r2.2)
    else
      match cssChildren env href inDM cs nid with
      | .error e => .error e
      | .ok r => .ok (some (Node.element i t a h r.1), r.2.1, r.2.2)
  | .fragment cs, nid =>
    match cssChildren env href inDM cs nid with
    | .error e => .error e
    | .ok r => .ok (some (Node.fragment r.1), r.2.1, r.2.2)
  | .document cs, nid =>
    match cssChildren env href inDM cs nid with
    | .error e => .error e
    | .ok r => .ok (some (Node.document r.1), r.2.1, r.2.2)
  | n@(.text _), nid => .ok (some n, [], nid)
  | n@(.comment _), nid => .ok (some n, [], nid)

def cssChildren (env : Env) (href : String) (inDM : Bool) :
    List Node → Nat → Except String (List Node × List Node × Nat)
  | [], nid => .ok ([], [], nid)
  | c :: cs, nid =>
    match cssNode env href inDM c nid with
    | .error e => .error e
    | .ok r =>
      match cssChildren env href inDM cs r.2.2 with
      | .error e => .error e
      | .ok rs =>
        .ok ((match r.1 with | some c' => c' :: rs.1 | none => rs.1),
          r.2.1 ++ rs.2.1, rs.2.2)

end

def inlineCssStage (env : Env) (href : String) (d : Node) (nid : Nat) :
    Except String (Node × Nat) :=
  match cssNode env href false d nid with
  | .error e => .error e
  | .ok r =>
    match r.1 with
    | some d' => .ok (d', r.2.2)
    | none => .ok (d, r.2.2)

/-! Comment deduplication (the comment-map module is not under src/). -/

/-- Modelled from the spec: the CommentMap collection — `set` inserts only
unseen texts, `keys` returns the texts in first-insertion order, at most
one entry per distinct text. -/
def cmSet (m : List (String × Node)) (k : String) (c : Node) : List (String × Node) :=
  if m.any (fun p => p.1 == k) then m else m ++ [(k, c)]

def cmGet (m : List (String × Node)) (k : String) : Option Node :=
  (m.find? (fun p => p.1 == k)).map Prod.snd

def cmKeys (m : List (String × Node)) : List String :=
  m.map Prod.fst

def commentDataOf : Node → String
  | .comment d => d
  | _ => ""

/-- The comment map built by walking all comments of the document in
pre-order (vulcan.ts lines 441-444). -/
def commentMapOf (doc : Node) : List (String × Node) :=
  (nodeWalkAll isCommentNode doc).foldl (fun m c => cmSet m (commentDataOf c) c) []

/-- The strip-comments stage (vulcan.ts lines 435-453): every comment is
recorded and removed; afterwards each distinct license text, in first-seen
order, has its recorded comment node prepended into head.  A missing head
only crashes the source when a prepend actually runs. -/
def stripCommentsStage (doc : Node) : Except String Node :=
  let cm := commentMapOf doc
  let doc1 := removeComments doc
  let lic := (cmKeys cm).filter hasLicenseMarker
  lic.foldlM
    (fun d k =>
      match cmGet cm k with
      | some c => prependToFirstHead c d
      | none => .ok d) doc1

/-! Implicit excludes (vulcan.ts lines 358-393). -/

/-- JavaScript `exclude.match(/.js$/)`: the dot of the pattern matches any
character, so every string of length at least three ending in `js` is
matched. -/
def matchesDotJsRegex (s : String) : Bool :=
  strEndsWith s "js" && decide (3 ≤ s.data.length)

/-- JavaScript `exclude.match(/.css$/)`. -/
def matchesDotCssRegex (s : String) : Bool :=
  strEndsWith s "css" && decide (4 ≤ s.data.length)

/-- The skip condition of getImplicitExcludes. -/
def implicitSkip (s : String) : Bool :=
  matchesDotJsRegex s || matchesDotCssRegex s || strEndsWith s "/"

/-- The dependency fetches of getImplicitExcludes: excludes matched by the
skip condition are not analyzed; a failing dependency analysis is decorated
with the excluded URL and aborts. -/
def collectExcludeDeps (deps : String → Except String (List String)) :
    List String → Except String (List (List String))
  | [] => .ok []
  | e :: rest =>
    if implicitSkip e then collectExcludeDeps deps rest
    else
      match deps e with
      | .error msg => .error (msg ++ ". Could not read dependencies for excluded URL: " ++ e)
      | .ok l =>
        match collectExcludeDeps deps rest with
        | .error msg => .error msg
        | .ok ls => .ok (l :: ls)

/-- Same fetches without the skip condition (spec-side reference used to
state what the filtering amounts to). -/
def collectAllDeps (deps : String → Except String (List String)) :
    List String → Except String (List (List String))
  | [] => .ok []
  | e :: rest =>
    match deps e with
    | .error msg => .error (msg ++ ". Could not read dependencies for excluded URL: " ++ e)
    | .ok l =>
      match collectAllDeps deps rest with
      | .error msg => .error msg
      | .ok ls => .ok (l :: ls)

/-- First-occurrence deduplication (JavaScript object keys preserve first
insertion order). -/
def firstDedup (seen : List String) : List String → List String
  | [] => []
  | s :: rest =>
    if seen.contains s then firstDedup seen rest
    else s :: firstDedup (s :: seen) rest

/-- getImplicitExcludes (vulcan.ts): the deduplicated union of the
dependency lists of the analyzed excludes, the dependency analyzer being
the consumed collaborator `deps`. -/
def getImplicitExcludes (deps : String → Except String (List String))
    (excludes : List String) : Except String (List String) :=
  match collectExcludeDeps deps excludes with
  | .error e => .error e
  | .ok ls => .ok (firstDedup [] ls.flatten)

/-- The pipeline tail of `_process` after flatten: the meta-charset step,
then the optional script inlining, css inlining and comment-stripping
stages, in the fixed stage order of the promise chain. -/
def postFlatten (env : Env) (href : String) (d : Node) (nid : Nat) : Except String Node :=
  match metaStage env.cfg d nid with
  | .error e => .error e
  | .ok r1 =>
    let d2 := if env.cfg.enableScriptInlining
      then inlineScriptsStage env href r1.1 else r1.1
    let cssRes := if env.cfg.enableCssInlining
      then inlineCssStage env href d2 r1.2
      else .ok (d2, r1.2)
    match cssRes with
    | .error e => .error e
    | .ok r2 =>
      if env.cfg.stripComments then stripCommentsStage r2.1 else .ok r2.1

/-- _process (vulcan.ts lines 395-458) on the analyzer's import tree: push
the implicit excludes onto stripExcludes when implicitStrip is set, flatten
as the main document, then run the pipeline tail; any stage failure
short-circuits to the completion callback with no document. -/
def vulcanProcess (env : Env) (deps : String → Except String (List String))
    (tree : ImportTree) (nid : Nat) : Except String Node :=
  let cfgRes :=
    if env.cfg.implicitStrip then
      match getImplicitExcludes deps env.cfg.excludes with
      | .error e => Except.error e
      | .ok l =>
          Except.ok
            (Config.mk env.cfg.implicitStrip env.cfg.addedImports env.cfg.excludes
              (env.cfg.stripExcludes ++ l) env.cfg.stripComments env.cfg.enableCssInlining
              env.cfg.enableScriptInlining)
    else Except.ok env.cfg
  match cfgRes with
  | .error e => .error e
  | .ok cfg2 =>
    let env2 : Env :=
      ⟨cfg2, env.urlToPath, env.acid, env.resolvePaths, env.urlResolve, env.loader,
        env.enc, env.rewriteURL⟩
    match flatten env2 tree true nid with
    | .error e => .error e
    | .ok r => postFlatten env2 (hrefStr tree.href) r.1 r.2

/-! Derived notions used by the statements of the claims. -/

/-- The hidden authorship-marked wrapper created by `hide`, holding the
given node. -/
def hiddenWrap (hid : Nat) (inner : Node) : Node :=
  Node.element hid "div" [("hidden", ""), ("by-vulcanize", "")] none [inner]

/-- The merged fragment substituted for an import site: the carried-forward
license comments, then the imported head children, then the imported body
children (vulcan.ts lines 224-244). -/
def mergedImportFragment (rdoc ih ib : Node) : Node :=
  Node.fragment
    (((childrenOf rdoc ++
        (match findParentOfFirst isHeadEl rdoc with
          | some p => childrenOf p
          | none => [])).filter isLicenseComment) ++ childrenOf ih ++ childrenOf ib)

/-- Children of the first head element of the document. -/
def headChildrenOf (d : Node) : List Node :=
  match query isHeadEl d with
  | some h => childrenOf h
  | none => []

/-- A comment node with the given text. -/
def commentWithData (s : String) (n : Node) : Bool :=
  match n with
  | .comment d => d == s
  | _ => false

/-- The distinct license comment texts of the document, in first-seen
order (the keys of the comment map that carry the license marker). -/
def licenseKeysOf (doc : Node) : List String :=
  (cmKeys (commentMapOf doc)).filter hasLicenseMarker

mutual

/-- Well-formedness of a parsed document for the inlining stages: script
elements contain only text and link elements are childless (void).  Both
hold of every parse5-produced tree. -/
def wfInl : Node → Bool
  | .element _ tag _ _ cs =>
      (!(tag == "script") || cs.all isTextNode) &&
      (!(tag == "link") || cs.isEmpty) && wfInlL cs
  | .fragment cs => wfInlL cs
  | .document cs => wfInlL cs
  | .text _ => true
  | .comment _ => true

def wfInlL : List Node → Bool
  | [] => true
  | c :: cs => wfInl c && wfInlL cs

end

/-! Concrete sample data used by the witnesses of the claims. -/

def sampleCfg : Config :=
  ⟨true, [], ["vendor/"], ["legacy/"], true, true, true⟩

def plainCfg : Config :=
  ⟨false, [], [], [], false, false, false⟩

/-- A collaborator environment whose resolver capabilities are identities
and whose loader always misses. -/
def sampleEnv (cfg : Config) : Env :=
  ⟨cfg, id, fun d _ => d, fun d _ _ => d, fun _ s => s, fun _ => none, id, fun _ _ c => c⟩

def sampleDoc : Node :=
  .document
    [.element 1 "html" [] none
      [.element 2 "head" [] none [], .element 3 "body" [] none
        [.element 4 "link" [("rel", "import"), ("href", "a.html")] none []]]]

def sampleTree : ImportTree :=
  .mk (some "index.html") sampleDoc [] []

/-- Dependency oracle exhibiting the implicit-exclude filtering. -/
def cexDeps : String → Except String (List String) :=
  fun e => if e == "utiljs" then .ok ["dep.html"] else .ok []

def oldPolymerTree : ImportTree :=
  .mk (some "legacy.html")
    (.document
      [.element 1 "html" [] none
        [.element 2 "head" [] none [],
         .element 3 "body" [] none [.element 4 "polymer-element" [] none []]]]) [] []


/-- Import tree of a small resolvable import, used by the witnesses. -/
def sampleImportTree : ImportTree :=
  .mk (some "a.html")
    (.document [.element 11 "html" [] none
      [.element 12 "head" [] none [], .element 13 "body" [] none []]]) [] []

/-- The flatten result of `sampleImportTree` as a non-main document. -/
def c4Idoc : Node :=
  .document [.element 11 "html" [] none
    [.element 12 "head" [] none [],
     .element 13 "body" [] none [.fragment []]]]

def c4Ih : Node := .element 12 "head" [] none []

def c4Ib : Node := .element 13 "body" [] none [.fragment []]

/-- A document with a duplicated license comment and a plain comment. -/
def sampleCommentDoc : Node :=
  .document [.element 1 "html" [] none
    [.element 2 "head" [] none [],
     .element 3 "body" [] none
       [.comment " @license L ", .comment " @license L ", .comment "plain"]]]

/-- The strip-comments result of `sampleCommentDoc`. -/
def sampleCommentOut : Node :=
  .document [.element 1 "html" [] none
    [.element 2 "head" [] none [.comment " @license L "],
     .element 3 "body" [] none []]]

/-- The pipeline-tail result of `sampleDoc` with every stage flag off. -/
def sampleMetaOut : Node :=
  .document [.element 1 "html" [] none
    [.element 2 "head" [] none
       [.element 100 "meta" [("charset", "UTF-8")] none []],
     .element 3 "body" [] none
       [.element 4 "link" [("rel", "import"), ("href", "a.html")] none []]]]

/-- A duplicate import edge (absent href). -/
def sampleDupImport : ImportTree := .mk none (.fragment []) [] []

/-- An import edge whose href is the empty string. -/
def sampleEmptyHrefImport : ImportTree := .mk (some "") (.fragment []) [] []

/-- An import edge matching the `vendor/` exclusion pattern of `sampleCfg`. -/
def sampleVendorImport : ImportTree := .mk (some "vendor/lib.html") (.fragment []) [] []

/-- An external script element. -/
def sampleScriptNode : Node := .element 7 "script" [("src", "x.js")] none []

/-- A configuration agreeing with `sampleCfg` on the pattern lists only. -/
def altCfg : Config := ⟨false, ["z.html"], ["vendor/"], ["legacy/"], false, false, false⟩

end PolymerBundler

namespace PolymerBundler

theorem hasId_removeEAN (x t : Nat) (r : Option Node) (c : Node) :
    hasId x (removeEAN t r c) = hasId x c := by
  cases c <;> rfl

mutual

theorem query_satisfies (p : Node → Bool) (d : Node) (r : Node)
    (h : query p d = some r) : p r = true := by
  cases d with
  | element i tg a hy cs =>
    rw [query] at h
    by_cases hp : p (Node.element i tg a hy cs)
    · simp [hp] at h; subst h; exact hp
    · simp [hp] at h; exact queryList_satisfies p cs r h
  | fragment cs =>
    rw [query] at h
    by_cases hp : p (Node.fragment cs)
    · simp [hp] at h; subst h; exact hp
    · simp [hp] at h; exact queryList_satisfies p cs r h
  | document cs =>
    rw [query] at h
    by_cases hp : p (Node.document cs)
    · simp [hp] at h; subst h; exact hp
    · simp [hp] at h; exact queryList_satisfies p cs r h
  | text s =>
    rw [query] at h
    by_cases hp : p (Node.text s)
    · simp [hp] at h; subst h; exact hp
    · simp [hp] at h
  | comment s =>
    rw [query] at h
    by_cases hp : p (Node.comment s)
    · simp [hp] at h; subst h; exact hp
    · simp [hp] at h

theorem queryList_satisfies (p : Node → Bool) (cs : List Node) (r : Node)
    (h : queryList p cs = some r) : p r = true := by
  cases cs with
  | nil => simp [queryList] at h
  | cons c cs =>
    rw [queryList] at h
    cases hq : query p c with
    | some x => rw [hq] at h; cases h; exact query_satisfies p c r hq
    | none => rw [hq] at h; exact queryList_satisfies p cs r h

end

mutual

theorem query_isSome_iff (p : Node → Bool) (d : Node) :
    (query p d).isSome = true ↔ 0 < countMatching p d := by
  cases d with
  | element i tg a hy cs =>
    rw [query, countMatching]
    by_cases hp : p (Node.element i tg a hy cs)
    · simp [hp]
    · simp [hp, queryList_isSome_iff p cs]
  | fragment cs =>
    rw [query, countMatching]
    by_cases hp : p (Node.fragment cs)
    · simp [hp]
    · simp [hp, queryList_isSome_iff p cs]
  | document cs =>
    rw [query, countMatching]
    by_cases hp : p (Node.document cs)
    · simp [hp]
    · simp [hp, queryList_isSome_iff p cs]
  | text s =>
    rw [query, countMatching]
    by_cases hp : p (Node.text s) <;> simp [hp]
  | comment s =>
    rw [query, countMatching]
    by_cases hp : p (Node.comment s) <;> simp [hp]

theorem queryList_isSome_iff (p : Node → Bool) (cs : List Node) :
    (queryList p cs).isSome = true ↔ 0 < countMatchingL p cs := by
  cases cs with
  | nil => simp [queryList, countMatchingL]
  | cons c cs =>
    rw [queryList, countMatchingL]
    cases hq : query p c with
    | some x =>
      have hx : (query p c).isSome = true := by rw [hq]; rfl
      have hc := (query_isSome_iff p c).mp hx
      simp [hq]; omega
    | none =>
      have hx : ¬ (query p c).isSome = true := by rw [hq]; simp
      have hc : countMatching p c = 0 := by
        by_contra hne
        exact hx ((query_isSome_iff p c).mpr (Nat.pos_of_ne_zero hne))
      simp [hq, hc, queryList_isSome_iff p cs]

end

theorem hasId_elem (t i : Nat) (tg : String) (a : List (String × String))
    (hy : Option String) (cs : List Node) :
    hasId t (Node.element i tg a hy cs) = (i == t) := rfl

theorem hasId_frag (t : Nat) (cs : List Node) : hasId t (Node.fragment cs) = false := rfl

theorem hasId_docu (t : Nat) (cs : List Node) : hasId t (Node.document cs) = false := rfl

theorem hasId_text (t : Nat) (s : String) : hasId t (Node.text s) = false := rfl

theorem hasId_comm (t : Nat) (s : String) : hasId t (Node.comment s) = false := rfl

theorem root_false_of_count_zero (p : Node → Bool) (c : Node)
    (h : countMatching p c = 0) : p c = false := by
  cases hp : p c
  · rfl
  · exfalso
    cases c <;> (rw [countMatching] at h; rw [hp] at h; simp at h)

theorem removeEANList_nil (t : Nat) (r : Option Node) : removeEANList t r [] = [] := by
  rw [removeEANList.eq_def]

theorem removeEANList_cons (t : Nat) (r : Option Node) (c : Node) (cs : List Node) :
    removeEANList t r (c :: cs) = (if hasId t c then
      (match cs with
      | [] => replList r
      | n :: cs' =>
        if isBlankTextNode n then replList r ++ removeEANList t r cs'
        else replList r ++ removeEANList t r (n :: cs'))
    else removeEAN t r c :: removeEANList t r cs) := by
  rw [removeEANList.eq_def]

mutual

theorem count_hasId_removeEAN (t : Nat) (d : Node) (h : hasId t d = false) :
    countMatching (hasId t) (removeEAN t none d) = 0 := by
  cases d with
  | element i tg a hy cs =>
    rw [removeEAN, countMatching]
    rw [hasId_elem] at h
    simp [hasId_elem, h, countL_hasId_removeEANList t cs]
  | fragment cs =>
    rw [removeEAN, countMatching]
    simp [hasId_frag, countL_hasId_removeEANList t cs]
  | document cs =>
    rw [removeEAN, countMatching]
    simp [hasId_docu, countL_hasId_removeEANList t cs]
  | text s => rw [removeEAN, countMatching]; simp [hasId_text]
  | comment s => rw [removeEAN, countMatching]; simp [hasId_comm]

theorem countL_hasId_removeEANList (t : Nat) (cs : List Node) :
    countMatchingL (hasId t) (removeEANList t none cs) = 0 := by
  cases cs with
  | nil => rw [removeEANList_nil]; rw [countMatchingL]
  | cons c cs =>
    by_cases hc : hasId t c
    · rw [removeEANList_cons]
      cases cs with
      | nil => simp [hc, replList, countMatchingL]
      | cons n cs' =>
        by_cases hb : isBlankTextNode n
        · simp [hc, hb, replList, countMatchingL, countL_hasId_removeEANList t cs']
        · simp [hc, hb, replList, countMatchingL, countL_hasId_removeEANList t (n :: cs')]
    · have hcc := count_hasId_removeEAN t c (by simpa using hc)
      rw [removeEANList_cons]
      simp [hc, countMatchingL, hcc, countL_hasId_removeEANList t cs]

end

mutual

theorem removeEAN_id_of_count0 (t : Nat) (r : Option Node) (d : Node)
    (h : countMatching (hasId t) d = 0) : removeEAN t r d = d := by
  cases d with
  | element i tg a hy cs =>
    rw [countMatching] at h
    rw [removeEAN, removeEANList_id_of_count0 t r cs (by omega)]
  | fragment cs =>
    rw [countMatching] at h
    rw [removeEAN, removeEANList_id_of_count0 t r cs (by omega)]
  | document cs =>
    rw [countMatching] at h
    rw [removeEAN, removeEANList_id_of_count0 t r cs (by omega)]
  | text s => rfl
  | comment s => rfl

theorem removeEANList_id_of_count0 (t : Nat) (r : Option Node) (cs : List Node)
    (h : countMatchingL (hasId t) cs = 0) : removeEANList t r cs = cs := by
  cases cs with
  | nil => rfl
  | cons c cs =>
    rw [countMatchingL] at h
    have hc : countMatching (hasId t) c = 0 := by omega
    have hcs : countMatchingL (hasId t) cs = 0 := by omega
    have hroot : hasId t c = false := root_false_of_count_zero _ _ hc
    rw [removeEANList_cons]
    simp [hroot, removeEAN_id_of_count0 t r c hc,
      removeEANList_id_of_count0 t r cs hcs]

end

theorem removeEANList_wrap_cons (site hid : Nat) (hne : (hid == site) = false)
    (sn frag : Node) (hsn : hasId site sn = true)
    (tg : String) (a : List (String × String)) (hy : Option String) (X : List Node) :
    removeEANList site (some frag) (Node.element hid tg a hy [sn] :: X)
      = Node.element hid tg a hy [frag] :: removeEANList site (some frag) X := by
  rw [removeEANList_cons]
  have hw : hasId site (Node.element hid tg a hy [sn]) = false := by
    rw [hasId_elem]; exact hne
  simp only [hw, Bool.false_eq_true, if_false]
  rw [removeEAN, removeEANList_cons]
  simp [hsn, replList, removeEANList_nil]

mutual

theorem removeEAN_twice (site hid : Nat) (hne : (hid == site) = false)
    (sn frag : Node) (hsn : hasId site sn = true)
    (tg : String) (a : List (String × String)) (hy : Option String) (d : Node) :
    removeEAN site (some frag) (removeEAN site (some (Node.element hid tg a hy [sn])) d)
      = removeEAN site (some (Node.element hid tg a hy [frag])) d := by
  cases d with
  | element i tg2 a2 hy2 cs =>
    rw [removeEAN, removeEAN, removeEAN,
      removeEAN_twiceL site hid hne sn frag hsn tg a hy cs]
  | fragment cs =>
    rw [removeEAN, removeEAN, removeEAN,
      removeEAN_twiceL site hid hne sn frag hsn tg a hy cs]
  | document cs =>
    rw [removeEAN, removeEAN, removeEAN,
      removeEAN_twiceL site hid hne sn frag hsn tg a hy cs]
  | text s => rfl
  | comment s => rfl

theorem removeEAN_twiceL (site hid : Nat) (hne : (hid == site) = false)
    (sn frag : Node) (hsn : hasId site sn = true)
    (tg : String) (a : List (String × String)) (hy : Option String) (cs : List Node) :
    removeEANList site (some frag)
        (removeEANList site (some (Node.element hid tg a hy [sn])) cs)
      = removeEANList site (some (Node.element hid tg a hy [frag])) cs := by
  cases cs with
  | nil => rw [removeEANList_nil, removeEANList_nil, removeEANList_nil]
  | cons c cs =>
    by_cases hc : hasId site c
    · conv_lhs => rw [removeEANList_cons]
      conv_rhs => rw [removeEANList_cons]
      cases cs with
      | nil =>
        simp only [hc, if_true, replList]
        rw [removeEANList_wrap_cons site hid hne sn frag hsn tg a hy [],
          removeEANList_nil]
      | cons n cs' =>
        by_cases hb : isBlankTextNode n
        · simp only [hc, if_true, hb, replList, List.singleton_append]
          rw [removeEANList_wrap_cons site hid hne sn frag hsn tg a hy _,
            removeEAN_twiceL site hid hne sn frag hsn tg a hy cs']
        · simp only [hc, if_true, hb, Bool.false_eq_true, if_false, replList,
            List.singleton_append]
          rw [removeEANList_wrap_cons site hid hne sn frag hsn tg a hy _,
            removeEAN_twiceL site hid hne sn frag hsn tg a hy (n :: cs')]
    · conv_lhs => rw [removeEANList_cons]
      conv_rhs => rw [removeEANList_cons]
      simp only [hc, Bool.false_eq_true, if_false]
      rw [removeEANList_cons, hasId_removeEAN]
      simp only [hc, Bool.false_eq_true, if_false]
      rw [removeEAN_twice site hid hne sn frag hsn tg a hy c,
        removeEAN_twiceL site hid hne sn frag hsn tg a hy cs]

end

theorem removeEAN_hide (site hid : Nat) (hne : (hid == site) = false)
    (frag doc : Node) :
    removeEAN site (some frag) (hide hid site doc)
      = removeEAN site (some (hiddenWrap hid frag)) doc := by
  rw [hide]
  cases hf : findById site doc with
  | none =>
    have hq : (query (hasId site) doc).isSome = false := by
      rw [findById] at hf; rw [hf]; rfl
    have hcount : countMatching (hasId site) doc = 0 := by
      by_contra hne2
      have := (query_isSome_iff (hasId site) doc).mpr (Nat.pos_of_ne_zero hne2)
      rw [this] at hq
      simp at hq
    rw [removeEAN_id_of_count0 _ _ _ hcount, removeEAN_id_of_count0 _ _ _ hcount]
  | some sn =>
    have hsn : hasId site sn = true := by
      apply query_satisfies (hasId site) doc sn
      rw [findById] at hf; exact hf
    exact removeEAN_twice site hid hne sn frag hsn _ _ _ doc

theorem flatten_old_polymer (env : Env) (tree : ImportTree) (b : Bool) (nid : Nat)
    (h : hasOldPolymer tree.html = true) :
    flatten env tree b nid
      = .error (OLD_POLYMER ++ " File: " ++ env.urlToPath (hrefStr tree.href)) := by
  cases tree with
  | mk href html ins ims =>
    rw [ImportTree.html] at h
    rw [flatten]
    simp [h, ImportTree.href]

/-- C2: flatten on an import tree whose document contains the legacy dialect marker raises an error whose message carries the file path of the offending document, and the whole run never produces an output document. -/
theorem c2_old_polymer_aborts_run (env : Env) (tree : ImportTree) (isMain : Bool) (nid : Nat)
    (h : hasOldPolymer tree.html = true) :
    flatten env tree isMain nid
        = .error (OLD_POLYMER ++ " File: " ++ env.urlToPath (hrefStr tree.href)) ∧
      ∀ deps nid2 out, vulcanProcess env deps tree nid2 ≠ .ok out := by
  refine ⟨flatten_old_polymer env tree isMain nid h, ?_⟩
  intro deps nid2 out hok
  rw [vulcanProcess] at hok
  simp only [] at hok
  split at hok
  · simp at hok
  · rw [flatten_old_polymer _ tree true nid2 h] at hok
    simp at hok

/-- C1: in the flatten import loop, an edge that is a duplicate (absent href) or strip-excluded has its import site node removed together with an immediately following blank text node, the loop continues on the remaining edges, and no node of that edge is inserted: the site id no longer occurs in the document (when it was not the root's id). -/
theorem c1_duplicate_or_stripped_elided (env : Env) (treeHref : String) (main : Bool) (mtid : Nat)
    (doc : Node) (im : ImportTree) (ims : List ImportTree) (sites : List Nat)
    (site nid : Nat)
    (h : isDuplicateImport im = true ∨ isStrippedImport env.cfg im = true) :
    processImports env treeHref main mtid doc (im :: ims) (site :: sites) nid =
        processImports env treeHref main mtid (removeEAN site none doc) ims sites nid ∧
      (hasId site doc = false → occursId site (removeEAN site none doc) = false) := by
  constructor
  · have hb : (isDuplicateImport im || isStrippedImport env.cfg im) = true := by
      rcases h with h | h <;> simp [h]
    rw [processImports]
    simp [hb]
  · intro hroot
    rw [occursId]
    have hc := count_hasId_removeEAN site doc hroot
    cases hq : (query (hasId site) (removeEAN site none doc)).isSome with
    | false => rfl
    | true => exact absurd ((query_isSome_iff _ _).mp hq) (by omega)

/-- C7: an import edge that is neither a duplicate nor strip-excluded but matches an exclusion pattern is skipped by the flatten import loop: the document is left untouched and the imported tree is not flattened. -/
theorem c7_excluded_import_untouched (env : Env) (treeHref : String) (main : Bool) (mtid : Nat)
    (doc : Node) (im : ImportTree) (ims : List ImportTree) (sites : List Nat)
    (site nid : Nat)
    (h1 : isDuplicateImport im = false) (h2 : isStrippedImport env.cfg im = false)
    (h3 : isExcludedImport env.cfg im = true) :
    processImports env treeHref main mtid doc (im :: ims) (site :: sites) nid =
      processImports env treeHref main mtid doc ims sites nid := by
  rw [processImports]
  simp [h1, h2, h3]

/-- C9: isDuplicateImport holds exactly for a JavaScript-falsy href (absent or the empty string), so an edge whose href is the empty string is elided by the flatten import loop just like an absent one. -/
theorem c9_empty_href_is_duplicate (im : ImportTree) :
    (isDuplicateImport im = true ↔ im.href = none ∨ im.href = some "") ∧
      (∀ (env : Env) (treeHref : String) (main : Bool) (mtid : Nat) (doc : Node)
          (ims : List ImportTree) (sites : List Nat) (site nid : Nat),
        im.href = some "" →
          processImports env treeHref main mtid doc (im :: ims) (site :: sites) nid =
            processImports env treeHref main mtid (removeEAN site none doc) ims sites nid) := by
  constructor
  · rw [isDuplicateImport]
    cases hh : im.href with
    | none => simp [falsyHref]
    | some s => simp [falsyHref]
  · intro env treeHref main mtid doc ims sites site nid hh
    have hd : isDuplicateImport im = true := by
      rw [isDuplicateImport, hh]; simp [falsyHref]
    rw [processImports]
    simp [hd]

/-- C8: isExcludedHref and isStrippedImport are pure functions of the href and the corresponding pattern list of the configuration: configurations agreeing on that list produce the same result on the same input. -/
theorem c8_policy_matching_pure (c c' : Config) :
    (∀ href, c.excludes = c'.excludes → isExcludedHref c href = isExcludedHref c' href) ∧
      (∀ im, c.stripExcludes = c'.stripExcludes →
        isStrippedImport c im = isStrippedImport c' im) := by
  constructor
  · intro href he
    rw [isExcludedHref, isExcludedHref, he]
  · intro im hs
    rw [isStrippedImport, isStrippedImport, hs]

theorem collect_filter (deps : String → Except String (List String)) :
    ∀ l, collectExcludeDeps deps l
      = collectAllDeps deps (l.filter (fun e => !implicitSkip e))
  | [] => rfl
  | e :: rest => by
    by_cases hs : implicitSkip e
    · rw [collectExcludeDeps]
      simp only [hs, if_true, List.filter_cons, Bool.not_true, if_false]
      rw [collect_filter deps rest]
      simp [hs]
    · rw [collectExcludeDeps]
      simp only [hs, Bool.false_eq_true, if_false, List.filter_cons]
      rw [collectAllDeps.eq_def]
      simp only [hs, Bool.not_false]
      simp only [if_true]
      rw [collect_filter deps rest]

/-- C10 (amended): getImplicitExcludes analyzes exactly the excludes not matched by the skip condition (the regexes of the source, whose unescaped dot matches any character: last two characters js with length at least three, last three characters css with length at least four, or a trailing slash) and returns the first-occurrence deduplication of the union of their dependency lists. -/
theorem c10_implicit_skip_filter (deps : String → Except String (List String))
    (excludes : List String) :
    collectExcludeDeps deps excludes
        = collectAllDeps deps (excludes.filter (fun e => !implicitSkip e)) ∧
      getImplicitExcludes deps excludes
        = (match collectAllDeps deps (excludes.filter (fun e => !implicitSkip e)) with
            | .error e => .error e
            | .ok ls => .ok (firstDedup [] ls.flatten)) := by
  refine ⟨collect_filter deps excludes, ?_⟩
  rw [getImplicitExcludes, collect_filter deps excludes]

/-- C10 counterexample: the exclude pattern utiljs ends in none of .js, .css or /, yet getImplicitExcludes contributes none of its dependencies, refuting the claim that only excludes ending in .js, .css or / are skipped. -/
theorem c10_claim_counterexample :
    (strEndsWith "utiljs" ".js" = false ∧ strEndsWith "utiljs" ".css" = false ∧
        strEndsWith "utiljs" "/" = false) ∧
      getImplicitExcludes cexDeps ["utiljs"] = .ok [] ∧
      cexDeps "utiljs" = .ok ["dep.html"] := by
  refine ⟨⟨?_, ?_, ?_⟩, ?_, ?_⟩ <;> first | decide | rfl

/-- C5: the per-script edit of inlineScripts leaves a policy-excluded script untouched, leaves the script untouched when the loader resolves the URL (resolved against the base href) to empty or falsy content, and otherwise removes the source attribute and sets the text content to the encoded body. -/
theorem c5_inline_scripts_contract (env : Env) (href : String) (n : Node) (src : String)
    (_hm : isJsSrcScript n = true) (hsrc : getAttr n "src" = some src) :
    (isExcludedHref env.cfg src = true → inlineScriptEdit env href n = n) ∧
      (isExcludedHref env.cfg src = false →
        env.loader (env.urlResolve href src) = none → inlineScriptEdit env href n = n) ∧
      (isExcludedHref env.cfg src = false →
        env.loader (env.urlResolve href src) = some "" → inlineScriptEdit env href n = n) ∧
      (∀ content, content ≠ "" → isExcludedHref env.cfg src = false →
        env.loader (env.urlResolve href src) = some content →
          inlineScriptEdit env href n
            = setTextContentStr (env.enc content) (removeAttr n "src")) := by
  refine ⟨?_, ?_, ?_, ?_⟩
  · intro hex
    rw [inlineScriptEdit, hsrc]
    simp [hex]
  · intro hex hl
    rw [inlineScriptEdit, hsrc]
    simp [hex, hl]
  · intro hex hl
    rw [inlineScriptEdit, hsrc]
    simp [hex, hl]
  · intro content hc hex hl
    rw [inlineScriptEdit, hsrc]
    simp [hex, hl, hc]

/-- C4: a relocated import site of the main document is replaced by its merged fragment wrapped in exactly one hidden, authorship-marked container, unless the site is already a descendant of the relocation target, in which case the fragment replaces it with no additional wrapper. -/
theorem c4_hidden_wrapper_invariant (env : Env) (treeHref : String) (mtid : Nat) (doc : Node)
    (im : ImportTree) (ims : List ImportTree) (sites : List Nat) (site nid : Nat)
    (idoc : Node) (nid' : Nat)
    (h1 : isDuplicateImport im = false) (h2 : isStrippedImport env.cfg im = false)
    (h3 : isExcludedImport env.cfg im = false) (h4 : isTemplatedIn site doc = false)
    (hf : flatten env im false nid = .ok (idoc, nid'))
    (hne : (nid' == site) = false)
    (ih ib : Node)
    (hh : query isHeadEl (env.resolvePaths idoc (hrefStr im.href) treeHref) = some ih)
    (hb : query isBodyEl (env.resolvePaths idoc (hrefStr im.href) treeHref) = some ib) :
    (descendantOf mtid site doc = false →
      processImports env treeHref true mtid doc (im :: ims) (site :: sites) nid =
        processImports env treeHref true mtid
          (removeEAN site (some (hiddenWrap nid'
            (mergedImportFragment (env.resolvePaths idoc (hrefStr im.href) treeHref) ih ib))) doc)
          ims sites (nid' + 1)) ∧
    (descendantOf mtid site doc = true →
      processImports env treeHref true mtid doc (im :: ims) (site :: sites) nid =
        processImports env treeHref true mtid
          (removeEAN site (some
            (mergedImportFragment (env.resolvePaths idoc (hrefStr im.href) treeHref) ih ib)) doc)
          ims sites nid') := by
  constructor
  · intro hd
    rw [processImports]
    simp only [h1, h2, h3, h4, Bool.or_self, Bool.false_eq_true, if_false, hf]
    simp only [hh, hb, hd, Bool.not_false, Bool.true_and, if_true]
    rw [removeEAN_hide site nid' hne]
    rfl
  · intro hd
    rw [processImports]
    simp only [h1, h2, h3, h4, Bool.or_self, Bool.false_eq_true, if_false, hf]
    simp only [hh, hb, hd, Bool.not_true, Bool.true_and, Bool.false_eq_true, if_false]
    rfl

mutual

theorem modifyFirstGo_found (p : Node → Bool) (f : Node → Node) (n : Node) :
    (modifyFirstGo p f n).2 = (query p n).isSome := by
  cases n with
  | element i tg a hy cs =>
    rw [modifyFirstGo, query]
    by_cases hp : p (Node.element i tg a hy cs)
    · simp [hp]
    · simp [hp, modifyFirstList_found p f cs]
  | fragment cs =>
    rw [modifyFirstGo, query]
    by_cases hp : p (Node.fragment cs)
    · simp [hp]
    · simp [hp, modifyFirstList_found p f cs]
  | document cs =>
    rw [modifyFirstGo, query]
    by_cases hp : p (Node.document cs)
    · simp [hp]
    · simp [hp, modifyFirstList_found p f cs]
  | text s =>
    rw [modifyFirstGo, query]
    by_cases hp : p (Node.text s) <;> simp [hp]
  | comment s =>
    rw [modifyFirstGo, query]
    by_cases hp : p (Node.comment s) <;> simp [hp]

theorem modifyFirstList_found (p : Node → Bool) (f : Node → Node) (cs : List Node) :
    (modifyFirstList p f cs).2 = (queryList p cs).isSome := by
  cases cs with
  | nil => rw [modifyFirstList, queryList]; rfl
  | cons c cs =>
    rw [modifyFirstList, queryList]
    have hgo := modifyFirstGo_found p f c
    cases hq : query p c with
    | some x => simp [hq] at hgo; simp [hgo]
    | none => simp [hq] at hgo; simp [hgo, modifyFirstList_found p f cs]

end

theorem query_of_root (p : Node → Bool) (n : Node) (hp : p n = true) :
    query p n = some n := by
  cases n <;> rw [query] <;> simp [hp]

mutual

theorem query_modifyFirst (p : Node → Bool) (f : Node → Node)
    (hfp : ∀ n, p n = true → p (f n) = true)
    (hpc : ∀ m cs, p (withChildren m cs) = p m) (d : Node) :
    query p (modifyFirst p f d) = (query p d).map f := by
  cases d with
  | element i tg a hy cs =>
    rw [modifyFirst, modifyFirstGo]
    by_cases hp : p (Node.element i tg a hy cs)
    · simp only [hp, if_true]
      rw [query_of_root p _ (hfp _ hp), query_of_root p _ hp]
      rfl
    · simp only [hp, Bool.false_eq_true, if_false]
      have hroot : p (Node.element i tg a hy (modifyFirstList p f cs).1) = false := by
        have h1 := hpc (Node.element i tg a hy cs) (modifyFirstList p f cs).1
        have h2 := hpc (Node.element i tg a hy cs) cs
        rw [withChildren] at h1 h2
        rw [h1, h2]
        exact Bool.not_eq_true _ |>.mp hp
      rw [query, query]
      simp only [hroot, Bool.false_eq_true, if_false]
      have hp2 : p (Node.element i tg a hy cs) = false := Bool.not_eq_true _ |>.mp hp
      simp only [hp2, Bool.false_eq_true, if_false]
      exact queryList_modifyFirst p f hfp hpc cs
  | fragment cs =>
    rw [modifyFirst, modifyFirstGo]
    by_cases hp : p (Node.fragment cs)
    · simp only [hp, if_true]
      rw [query_of_root p _ (hfp _ hp), query_of_root p _ hp]
      rfl
    · simp only [hp, Bool.false_eq_true, if_false]
      have hroot : p (Node.fragment (modifyFirstList p f cs).1) = false := by
        have h1 := hpc (Node.fragment cs) (modifyFirstList p f cs).1
        have h2 := hpc (Node.fragment cs) cs
        rw [withChildren] at h1 h2
        rw [h1, h2]
        exact Bool.not_eq_true _ |>.mp hp
      rw [query, query]
      simp only [hroot, Bool.false_eq_true, if_false]
      have hp2 : p (Node.fragment cs) = false := Bool.not_eq_true _ |>.mp hp
      simp only [hp2, Bool.false_eq_true, if_false]
      exact queryList_modifyFirst p f hfp hpc cs
  | document cs =>
    rw [modifyFirst, modifyFirstGo]
    by_cases hp : p (Node.document cs)
    · simp only [hp, if_true]
      rw [query_of_root p _ (hfp _ hp), query_of_root p _ hp]
      rfl
    · simp only [hp, Bool.false_eq_true, if_false]
      have hroot : p (Node.document (modifyFirstList p f cs).1) = false := by
        have h1 := hpc (Node.document cs) (modifyFirstList p f cs).1
        have h2 := hpc (Node.document cs) cs
        rw [withChildren] at h1 h2
        rw [h1, h2]
        exact Bool.not_eq_true _ |>.mp hp
      rw [query, query]
      simp only [hroot, Bool.false_eq_true, if_false]
      have hp2 : p (Node.document cs) = false := Bool.not_eq_true _ |>.mp hp
      simp only [hp2, Bool.false_eq_true, if_false]
      exact queryList_modifyFirst p f hfp hpc cs
  | text str =>
    rw [modifyFirst, modifyFirstGo]
    by_cases hp : p (Node.text str)
    · simp only [hp, if_true]
      rw [query_of_root p _ (hfp _ hp), query_of_root p _ hp]
      rfl
    · simp only [hp, Bool.false_eq_true, if_false]
      rw [query]
      have hp2 : p (Node.text str) = false := Bool.not_eq_true _ |>.mp hp
      simp [hp2]
  | comment str =>
    rw [modifyFirst, modifyFirstGo]
    by_cases hp : p (Node.comment str)
    · simp only [hp, if_true]
      rw [query_of_root p _ (hfp _ hp), query_of_root p _ hp]
      rfl
    · simp only [hp, Bool.false_eq_true, if_false]
      rw [query]
      have hp2 : p (Node.comment str) = false := Bool.not_eq_true _ |>.mp hp
      simp [hp2]

theorem queryList_modifyFirst (p : Node → Bool) (f : Node → Node)
    (hfp : ∀ n, p n = true → p (f n) = true)
    (hpc : ∀ m cs, p (withChildren m cs) = p m) (cs : List Node) :
    queryList p (modifyFirstList p f cs).1 = (queryList p cs).map f := by
  cases cs with
  | nil => rw [modifyFirstList]; rfl
  | cons c cs =>
    rw [modifyFirstList]
    have hgo := modifyFirstGo_found p f c
    cases hq : query p c with
    | some x =>
      rw [hq] at hgo
      simp only [Option.isSome_some] at hgo
      simp only [hgo, if_true]
      rw [queryList]
      have hqm : query p (modifyFirst p f c) = some (f x) := by
        rw [query_modifyFirst p f hfp hpc c, hq]; rfl
      rw [modifyFirst] at hqm
      rw [hqm, queryList, hq]
      rfl
    | none =>
      rw [hq] at hgo
      simp only [Option.isSome_none] at hgo
      simp only [hgo, Bool.false_eq_true, if_false]
      rw [queryList]
      have hqm : query p (modifyFirst p f c) = none := by
        rw [query_modifyFirst p f hfp hpc c, hq]; rfl
      rw [queryList, hq]
      exact queryList_modifyFirst p f hfp hpc cs

end

theorem tagIs_element_shape (t : String) (n : Node) (h : tagIs t n = true) :
    ∃ i a hy cs, n = Node.element i t a hy cs := by
  cases n with
  | element i tg a hy cs =>
    rw [tagIs] at h
    exact ⟨i, a, hy, cs, by rw [eq_of_beq h]⟩
  | text s => simp [tagIs] at h
  | comment s => simp [tagIs] at h
  | fragment cs => simp [tagIs] at h
  | document cs => simp [tagIs] at h

mutual

theorem count_modifyFirst (p : Node → Bool) (f : Node → Node) (q : Node → Bool) (k : Nat)
    (hq : ∀ m cs, q (withChildren m cs) = q m)
    (hadd : ∀ n, p n = true → countMatching q (f n) = countMatching q n + k) (d : Node)
    (hfound : (query p d).isSome = true) :
    countMatching q (modifyFirst p f d) = countMatching q d + k := by
  cases d with
  | element i tg a hy cs =>
    rw [modifyFirst, modifyFirstGo]
    by_cases hp : p (Node.element i tg a hy cs)
    · simp only [hp, if_true]
      exact hadd _ hp
    · simp only [hp, Bool.false_eq_true, if_false]
      rw [query] at hfound
      have hp2 : p (Node.element i tg a hy cs) = false := Bool.not_eq_true _ |>.mp hp
      simp only [hp2, Bool.false_eq_true, if_false] at hfound
      have hql := countL_modifyFirstList p f q k hq hadd cs hfound
      have hr : q (Node.element i tg a hy (modifyFirstList p f cs).1)
          = q (Node.element i tg a hy cs) := by
        have h1 := hq (Node.element i tg a hy cs) (modifyFirstList p f cs).1
        have h2 := hq (Node.element i tg a hy cs) cs
        rw [withChildren] at h1 h2
        rw [h1, h2]
      rw [countMatching, countMatching, hr, hql]
      omega
  | fragment cs =>
    rw [modifyFirst, modifyFirstGo]
    by_cases hp : p (Node.fragment cs)
    · simp only [hp, if_true]
      exact hadd _ hp
    · simp only [hp, Bool.false_eq_true, if_false]
      rw [query] at hfound
      have hp2 : p (Node.fragment cs) = false := Bool.not_eq_true _ |>.mp hp
      simp only [hp2, Bool.false_eq_true, if_false] at hfound
      have hql := countL_modifyFirstList p f q k hq hadd cs hfound
      have hr : q (Node.fragment (modifyFirstList p f cs).1) = q (Node.fragment cs) := by
        have h1 := hq (Node.fragment cs) (modifyFirstList p f cs).1
        have h2 := hq (Node.fragment cs) cs
        rw [withChildren] at h1 h2
        rw [h1, h2]
      rw [countMatching, countMatching, hr, hql]
      omega
  | document cs =>
    rw [modifyFirst, modifyFirstGo]
    by_cases hp : p (Node.document cs)
    · simp only [hp, if_true]
      exact hadd _ hp
    · simp only [hp, Bool.false_eq_true, if_false]
      rw [query] at hfound
      have hp2 : p (Node.document cs) = false := Bool.not_eq_true _ |>.mp hp
      simp only [hp2, Bool.false_eq_true, if_false] at hfound
      have hql := countL_modifyFirstList p f q k hq hadd cs hfound
      have hr : q (Node.document (modifyFirstList p f cs).1) = q (Node.document cs) := by
        have h1 := hq (Node.document cs) (modifyFirstList p f cs).1
        have h2 := hq (Node.document cs) cs
        rw [withChildren] at h1 h2
        rw [h1, h2]
      rw [countMatching, countMatching, hr, hql]
      omega
  | text str =>
    rw [modifyFirst, modifyFirstGo]
    by_cases hp : p (Node.text str)
    · simp only [hp, if_true]
      exact hadd _ hp
    · rw [query] at hfound
      have hp2 : p (Node.text str) = false := Bool.not_eq_true _ |>.mp hp
      simp [hp2] at hfound
  | comment str =>
    rw [modifyFirst, modifyFirstGo]
    by_cases hp : p (Node.comment str)
    · simp only [hp, if_true]
      exact hadd _ hp
    · rw [query] at hfound
      have hp2 : p (Node.comment str) = false := Bool.not_eq_true _ |>.mp hp
      simp [hp2] at hfound

theorem countL_modifyFirstList (p : Node → Bool) (f : Node → Node) (q : Node → Bool)
    (k : Nat) (hq : ∀ m cs, q (withChildren m cs) = q m)
    (hadd : ∀ n, p n = true → countMatching q (f n) = countMatching q n + k)
    (cs : List Node) (hfound : (queryList p cs).isSome = true) :
    countMatchingL q (modifyFirstList p f cs).1 = countMatchingL q cs + k := by
  cases cs with
  | nil => rw [queryList] at hfound; simp at hfound
  | cons c cs =>
    rw [modifyFirstList]
    have hgo := modifyFirstGo_found p f c
    cases hqc : query p c with
    | some x =>
      rw [hqc] at hgo
      simp only [Option.isSome_some] at hgo
      simp only [hgo, if_true]
      have hnode := count_modifyFirst p f q k hq hadd c (by rw [hqc]; rfl)
      rw [modifyFirst] at hnode
      rw [countMatchingL, countMatchingL, hnode]
      omega
    | none =>
      rw [hqc] at hgo
      simp only [Option.isSome_none] at hgo
      simp only [hgo, Bool.false_eq_true, if_false]
      rw [queryList, hqc] at hfound
      have hlist := countL_modifyFirstList p f q k hq hadd cs hfound
      rw [countMatchingL, countMatchingL, hlist]
      omega

end

theorem count_prepend_of_tag (q : Node → Bool) (hq : ∀ m cs, q (withChildren m cs) = q m)
    (t : String) (c n : Node) (ht : tagIs t n = true) :
    countMatching q (prependChild c n) = countMatching q n + countMatching q c := by
  obtain ⟨i, a, hy, cs, rfl⟩ := tagIs_element_shape t n ht
  rw [prependChild, childrenOf, withChildren]
  have hr : q (Node.element i t a hy (c :: cs)) = q (Node.element i t a hy cs) := by
    have h1 := hq (Node.element i t a hy cs) (c :: cs)
    have h2 := hq (Node.element i t a hy cs) cs
    rw [withChildren] at h1 h2
    rw [h1, h2]
  rw [countMatching, countMatching, hr, countMatchingL]
  omega

theorem childrenOf_prepend_of_tag (t : String) (c n : Node) (ht : tagIs t n = true) :
    childrenOf (prependChild c n) = c :: childrenOf n := by
  obtain ⟨i, a, hy, cs, rfl⟩ := tagIs_element_shape t n ht
  rw [prependChild, childrenOf, withChildren, childrenOf]

theorem tagIs_withChildren (t : String) (m : Node) (cs : List Node) :
    tagIs t (withChildren m cs) = tagIs t m := by
  cases m <;> rfl

theorem headChildren_prepend (c d : Node) (hfound : (query isHeadEl d).isSome = true) :
    headChildrenOf (modifyFirst isHeadEl (prependChild c) d) = c :: headChildrenOf d := by
  have hfp : ∀ n, isHeadEl n = true → isHeadEl (prependChild c n) = true := by
    intro n hn
    rw [prependChild, isHeadEl, tagIs_withChildren]
    exact hn
  have hpc : ∀ m cs, isHeadEl (withChildren m cs) = isHeadEl m := by
    intro m cs
    rw [isHeadEl, isHeadEl, tagIs_withChildren]
  rw [headChildrenOf, headChildrenOf, query_modifyFirst isHeadEl (prependChild c) hfp hpc d]
  cases hqd : query isHeadEl d with
  | none => rw [hqd] at hfound; simp at hfound
  | some h =>
    have hh : isHeadEl h = true := query_satisfies _ _ _ hqd
    simp only [Option.map_some]
    exact childrenOf_prepend_of_tag "head" c h hh

theorem commentWithData_withChildren (s : String) (m : Node) (cs : List Node) :
    commentWithData s (withChildren m cs) = commentWithData s m := by
  cases m <;> rfl

theorem commentWithData_comment_only (s : String) (n : Node)
    (h : isCommentNode n = false) : commentWithData s n = false := by
  cases n <;> first | rfl | (rw [isCommentNode] at h; exact absurd h (by simp))

mutual

theorem count_cwd_removeComments (s : String) (d : Node)
    (h : isCommentNode d = false) :
    countMatching (commentWithData s) (removeComments d) = 0 := by
  cases d with
  | element i tg a hy cs =>
    rw [removeComments, countMatching, countL_cwd_removeCommentsL s cs]
    rfl
  | fragment cs =>
    rw [removeComments, countMatching, countL_cwd_removeCommentsL s cs]
    rfl
  | document cs =>
    rw [removeComments, countMatching, countL_cwd_removeCommentsL s cs]
    rfl
  | text str => rfl
  | comment str => rw [isCommentNode] at h; exact absurd h (by simp)

theorem countL_cwd_removeCommentsL (s : String) (cs : List Node) :
    countMatchingL (commentWithData s) (removeCommentsL cs) = 0 := by
  cases cs with
  | nil => rfl
  | cons c cs =>
    rw [removeCommentsL]
    by_cases hc : isCommentNode c
    · simp only [hc, if_true]
      exact countL_cwd_removeCommentsL s cs
    · have hcf : isCommentNode c = false := Bool.not_eq_true _ |>.mp hc
      simp only [hcf, Bool.false_eq_true, if_false]
      rw [countMatchingL, count_cwd_removeComments s c hcf,
        countL_cwd_removeCommentsL s cs]

end

mutual

theorem nodeWalkAll_satisfies (p : Node → Bool) (d : Node) :
    ∀ x ∈ nodeWalkAll p d, p x = true := by
  intro x hx
  cases d with
  | element i tg a hy cs =>
    rw [nodeWalkAll] at hx
    rcases List.mem_append.mp hx with hx | hx
    · by_cases hp : p (Node.element i tg a hy cs)
      · simp [hp] at hx; subst hx; exact hp
      · simp [hp] at hx
    · exact nodeWalkAllL_satisfies p cs x hx
  | fragment cs =>
    rw [nodeWalkAll] at hx
    rcases List.mem_append.mp hx with hx | hx
    · by_cases hp : p (Node.fragment cs)
      · simp [hp] at hx; subst hx; exact hp
      · simp [hp] at hx
    · exact nodeWalkAllL_satisfies p cs x hx
  | document cs =>
    rw [nodeWalkAll] at hx
    rcases List.mem_append.mp hx with hx | hx
    · by_cases hp : p (Node.document cs)
      · simp [hp] at hx; subst hx; exact hp
      · simp [hp] at hx
    · exact nodeWalkAllL_satisfies p cs x hx
  | text str =>
    rw [nodeWalkAll] at hx
    by_cases hp : p (Node.text str)
    · simp [hp] at hx; subst hx; exact hp
    · simp [hp] at hx
  | comment str =>
    rw [nodeWalkAll] at hx
    by_cases hp : p (Node.comment str)
    · simp [hp] at hx; subst hx; exact hp
    · simp [hp] at hx

theorem nodeWalkAllL_satisfies (p : Node → Bool) (cs : List Node) :
    ∀ x ∈ nodeWalkAllL p cs, p x = true := by
  intro x hx
  cases cs with
  | nil => rw [nodeWalkAllL] at hx; simp at hx
  | cons c cs =>
    rw [nodeWalkAllL] at hx
    rcases List.mem_append.mp hx with hx | hx
    · exact nodeWalkAll_satisfies p c x hx
    · exact nodeWalkAllL_satisfies p cs x hx

end

theorem cmSet_keys (m : List (String × Node)) (k : String) (c : Node) :
    cmKeys (cmSet m k c) = if m.any (fun p => p.1 == k) then cmKeys m
      else cmKeys m ++ [k] := by
  rw [cmSet]
  by_cases ha : m.any (fun p => p.1 == k)
  · simp [ha]
  · simp [ha, cmKeys]

theorem cmFold_entries (l : List Node) :
    ∀ m, (∀ c ∈ l, isCommentNode c = true) →
      (∀ p ∈ m, isCommentNode p.2 = true ∧ commentDataOf p.2 = p.1) →
      ∀ p ∈ l.foldl (fun m c => cmSet m (commentDataOf c) c) m,
        isCommentNode p.2 = true ∧ commentDataOf p.2 = p.1 := by
  induction l with
  | nil => intro m _ hm p hp; exact hm p hp
  | cons c l ih =>
    intro m hl hm p hp
    rw [List.foldl_cons] at hp
    refine ih _ (fun x hx => hl x (List.mem_cons_of_mem c hx)) ?_ p hp
    intro e he
    rw [cmSet] at he
    by_cases ha : m.any (fun p => p.1 == commentDataOf c)
    · simp only [ha, if_true] at he
      exact hm e he
    · simp only [ha, Bool.false_eq_true, if_false] at he
      rcases List.mem_append.mp he with he | he
      · exact hm e he
      · simp at he
        subst he
        exact ⟨hl c (List.mem_cons_self c l), rfl⟩

theorem cmFold_keys_nodup (l : List Node) :
    ∀ m, (cmKeys m).Nodup →
      (cmKeys (l.foldl (fun m c => cmSet m (commentDataOf c) c) m)).Nodup := by
  induction l with
  | nil => intro m hm; exact hm
  | cons c l ih =>
    intro m hm
    rw [List.foldl_cons]
    refine ih _ ?_
    rw [cmSet_keys]
    by_cases ha : m.any (fun p => p.1 == commentDataOf c)
    · simp [ha, hm]
    · simp only [ha, Bool.false_eq_true, if_false]
      have hnot : commentDataOf c ∉ cmKeys m := by
        intro hmem
        rw [cmKeys] at hmem
        rcases List.mem_map.mp hmem with ⟨e, he, hek⟩
        have : m.any (fun p => p.1 == commentDataOf c) = true := by
          rw [List.any_eq_true]
          exact ⟨e, he, by rw [hek]; simp⟩
        exact ha this
      simp [List.nodup_append, hm, hnot]

theorem cmFold_keys_mem (l : List Node) :
    ∀ m s, s ∈ cmKeys (l.foldl (fun m c => cmSet m (commentDataOf c) c) m) ↔
      s ∈ cmKeys m ∨ ∃ c ∈ l, commentDataOf c = s := by
  induction l with
  | nil => intro m s; simp
  | cons c l ih =>
    intro m s
    rw [List.foldl_cons, ih]
    have hset : s ∈ cmKeys (cmSet m (commentDataOf c) c) ↔
        s ∈ cmKeys m ∨ commentDataOf c = s := by
      rw [cmSet_keys]
      by_cases ha : m.any (fun p => p.1 == commentDataOf c)
      · simp only [ha, if_true]
        constructor
        · intro h; exact Or.inl h
        · intro h
          rcases h with h | h
          · exact h
          · subst h
            rcases List.any_eq_true.mp ha with ⟨e, he, hek⟩
            rw [cmKeys]
            exact List.mem_map.mpr ⟨e, he, eq_of_beq hek⟩
      · simp only [ha, Bool.false_eq_true, if_false, List.mem_append,
          List.mem_singleton]
        constructor
        · intro h; rcases h with h | h
          · exact Or.inl h
          · exact Or.inr h.symm
        · intro h; rcases h with h | h
          · exact Or.inl h
          · exact Or.inr h.symm
    rw [hset]
    constructor
    · intro h
      rcases h with (h | h) | h
      · exact Or.inl h
      · exact Or.inr ⟨c, List.mem_cons_self c l, h⟩
      · rcases h with ⟨x, hx, hxs⟩
        exact Or.inr ⟨x, List.mem_cons_of_mem c hx, hxs⟩
    · intro h
      rcases h with h | ⟨x, hx, hxs⟩
      · exact Or.inl (Or.inl h)
      · rcases List.mem_cons.mp hx with hx | hx
        · subst hx; exact Or.inl (Or.inr hxs)
        · exact Or.inr ⟨x, hx, hxs⟩

theorem cmGet_of_mem_keys (m : List (String × Node)) (k : String)
    (hinv : ∀ p ∈ m, isCommentNode p.2 = true ∧ commentDataOf p.2 = p.1)
    (hk : k ∈ cmKeys m) :
    ∃ c, cmGet m k = some c ∧ isCommentNode c = true ∧ commentDataOf c = k := by
  have hsome : (m.find? (fun p => p.1 == k)).isSome := by
    rw [List.find?_isSome]
    rcases List.mem_map.mp hk with ⟨e, he, hek⟩
    exact ⟨e, he, by rw [hek]; simp⟩
  cases hf : m.find? (fun p => p.1 == k) with
  | none => rw [hf] at hsome; simp at hsome
  | some e =>
    have hmem := List.mem_of_find?_eq_some hf
    have hpred := List.find?_some hf
    have he := hinv e hmem
    refine ⟨e.2, ?_, he.1, ?_⟩
    · rw [cmGet, hf]; rfl
    · rw [he.2]; exact eq_of_beq hpred

theorem comment_shape (c : Node) (k : String) (hcom : isCommentNode c = true)
    (hdata : commentDataOf c = k) : c = Node.comment k := by
  cases c with
  | comment d0 =>
    rw [commentDataOf] at hdata
    rw [hdata]
  | element i tg a hy cs => exact Bool.noConfusion hcom
  | text str => exact Bool.noConfusion hcom
  | fragment cs => exact Bool.noConfusion hcom
  | document cs => exact Bool.noConfusion hcom

theorem count_cwd_comment (s k : String) :
    countMatching (commentWithData s) (Node.comment k)
      = if (k == s) = true then 1 else 0 := by
  rw [countMatching]
  rfl

theorem fold_prepend (cm : List (String × Node)) (ks : List String) :
    ∀ (d out : Node),
      (∀ k ∈ ks, ∃ c, cmGet cm k = some c ∧ isCommentNode c = true ∧
        commentDataOf c = k) →
      ks.Nodup →
      ks.foldlM (fun d k =>
          match cmGet cm k with
          | some c => prependToFirstHead c d
          | none => Except.ok d) d = Except.ok out →
      (∀ s, countMatching (commentWithData s) out
          = countMatching (commentWithData s) d + (if s ∈ ks then 1 else 0)) ∧
      headChildrenOf out = ks.reverse.filterMap (cmGet cm) ++ headChildrenOf d := by
  induction ks with
  | nil =>
    intro d out _ _ hok
    simp only [List.foldlM_nil] at hok
    cases hok
    constructor
    · intro s; simp
    · simp
  | cons k ks ih =>
    intro d out hall hnodup hok
    obtain ⟨c, hget, hcom, hdata⟩ := hall k (List.mem_cons_self k ks)
    rw [List.foldlM_cons] at hok
    simp only [hget] at hok
    cases hpre : prependToFirstHead c d with
    | error e =>
      rw [hpre] at hok
      exact Except.noConfusion hok
    | ok d1 =>
      rw [hpre] at hok
      have hok2 : List.foldlM (fun d k =>
          match cmGet cm k with
          | some c => prependToFirstHead c d
          | none => Except.ok d) d1 ks = Except.ok out := hok
      clear hok
      rw [prependToFirstHead] at hpre
      by_cases hhead : (query isHeadEl d).isSome = true
      · simp only [hhead, if_true, Except.ok.injEq] at hpre
        subst hpre
        have ihr := ih _ out
          (fun x hx => hall x (List.mem_cons_of_mem k hx))
          (List.Nodup.of_cons hnodup) hok2
        have hknotin : k ∉ ks := by
          rw [List.nodup_cons] at hnodup
          exact hnodup.1
        have hcc : c = Node.comment k := comment_shape c k hcom hdata
        constructor
        · intro s
          have hcount : countMatching (commentWithData s)
              (modifyFirst isHeadEl (prependChild c) d)
              = countMatching (commentWithData s) d
                + countMatching (commentWithData s) c := by
            refine count_modifyFirst isHeadEl (prependChild c) (commentWithData s)
              (countMatching (commentWithData s) c)
              (commentWithData_withChildren s) ?_ d hhead
            intro n hn
            exact count_prepend_of_tag (commentWithData s)
              (commentWithData_withChildren s) "head" c n hn
          rw [ihr.1 s, hcount, hcc, count_cwd_comment s k]
          by_cases hs : s = k
          · subst hs
            have hks : (s == s) = true := by simp
            simp only [hks, if_true, List.mem_cons, true_or]
            simp [hknotin]
          · have hks : (k == s) = false := by
              simp only [beq_eq_false_iff_ne, ne_eq]
              exact fun hk => hs hk.symm
            simp only [hks, Bool.false_eq_true, if_false, List.mem_cons]
            have : (s ∈ ks ∨ s = k) ↔ s ∈ ks := by
              constructor
              · intro h; rcases h with h | h; exact h; exact absurd h hs
              · intro h; exact Or.inl h
            by_cases hmem : s ∈ ks <;> simp [hmem, hs]
        · rw [ihr.2, headChildren_prepend c d hhead]
          rw [List.reverse_cons, List.filterMap_append]
          simp only [List.filterMap_cons, hget, List.filterMap_nil]
          rw [List.append_assoc]
          rfl
      · have hh2 : (query isHeadEl d).isSome = false := Bool.not_eq_true _ |>.mp hhead
        rw [hh2] at hpre
        simp at hpre

/-- C3: after the strip-comments stage, every comment of the document has been removed and, for each distinct comment text containing the license marker, exactly one comment carrying it remains; the keys of the comment map are exactly the comment texts of the document; the reinserted license comments sit at the front of head, before the previous head content. -/
theorem c3_strip_comments_license_dedup (doc out : Node) (hroot : isCommentNode doc = false)
    (hok : stripCommentsStage doc = .ok out) :
    (∀ s, countMatching (commentWithData s) out
        = if s ∈ licenseKeysOf doc then 1 else 0) ∧
    (∀ s, s ∈ cmKeys (commentMapOf doc) ↔
        ∃ c ∈ nodeWalkAll isCommentNode doc, commentDataOf c = s) ∧
    headChildrenOf out
      = (licenseKeysOf doc).reverse.filterMap (cmGet (commentMapOf doc))
          ++ headChildrenOf (removeComments doc) := by
  have hinv : ∀ p ∈ commentMapOf doc,
      isCommentNode p.2 = true ∧ commentDataOf p.2 = p.1 := by
    rw [commentMapOf]
    exact cmFold_entries (nodeWalkAll isCommentNode doc) []
      (nodeWalkAll_satisfies isCommentNode doc) (by simp)
  have hnodup : (cmKeys (commentMapOf doc)).Nodup := by
    rw [commentMapOf]
    exact cmFold_keys_nodup (nodeWalkAll isCommentNode doc) [] (by simp [cmKeys])
  have hlicnodup : (licenseKeysOf doc).Nodup := by
    rw [licenseKeysOf]
    exact List.Nodup.filter _ hnodup
  have hall : ∀ k ∈ licenseKeysOf doc, ∃ c, cmGet (commentMapOf doc) k = some c ∧
      isCommentNode c = true ∧ commentDataOf c = k := by
    intro k hk
    rw [licenseKeysOf] at hk
    exact cmGet_of_mem_keys (commentMapOf doc) k hinv (List.mem_of_mem_filter hk)
  have hok2 : (licenseKeysOf doc).foldlM (fun d k =>
      match cmGet (commentMapOf doc) k with
      | some c => prependToFirstHead c d
      | none => Except.ok d) (removeComments doc) = Except.ok out := hok
  have hfold := fold_prepend (commentMapOf doc) (licenseKeysOf doc)
    (removeComments doc) out hall hlicnodup hok2
  refine ⟨?_, ?_, hfold.2⟩
  · intro s
    rw [hfold.1 s, count_cwd_removeComments s doc hroot]
    simp
  · intro s
    rw [commentMapOf, cmFold_keys_mem (nodeWalkAll isCommentNode doc) [] s]
    simp [cmKeys]

theorem isMetaCharset_withChildren (m : Node) (cs : List Node) :
    isMetaCharset (withChildren m cs) = isMetaCharset m := by
  cases m <;> rfl

theorem count_meta_addImportLink (h : String) (nid : Nat) :
    countMatching isMetaCharset (addImportLink h nid) = 0 := rfl

theorem addedImportsGo_count (l : List String) :
    ∀ (d : Node) (nid : Nat) (d1 : Node) (nid1 : Nat),
      addedImportsGo l d nid = .ok (d1, nid1) →
      countMatching isMetaCharset d1 = countMatching isMetaCharset d := by
  induction l with
  | nil =>
    intro d nid d1 nid1 hok
    rw [addedImportsGo] at hok
    cases hok
    rfl
  | cons h rest ih =>
    intro d nid d1 nid1 hok
    rw [addedImportsGo] at hok
    cases hpre : prependToFirstHead (addImportLink h nid) d with
    | error e => rw [hpre] at hok; exact Except.noConfusion hok
    | ok dx =>
      rw [hpre] at hok
      rw [prependToFirstHead] at hpre
      by_cases hhead : (query isHeadEl d).isSome = true
      · simp only [hhead, if_true, Except.ok.injEq] at hpre
        subst hpre
        rw [ih _ _ _ _ hok]
        have := count_modifyFirst isHeadEl (prependChild (addImportLink h nid))
          isMetaCharset (countMatching isMetaCharset (addImportLink h nid))
          isMetaCharset_withChildren
          (fun n hn => count_prepend_of_tag isMetaCharset isMetaCharset_withChildren
            "head" (addImportLink h nid) n hn) d hhead
        rw [this, count_meta_addImportLink]
        omega
      · have hh2 : (query isHeadEl d).isSome = false := Bool.not_eq_true _ |>.mp hhead
        rw [hh2] at hpre
        simp at hpre

theorem count_meta_metaNode (nid : Nat) :
    countMatching isMetaCharset (Node.element nid "meta" [("charset", "UTF-8")] none []) = 1 := rfl

theorem metaStage_count (cfg : Config) (d : Node) (nid : Nat) (d2 : Node) (nid2 : Nat)
    (hok : metaStage cfg d nid = .ok (d2, nid2)) :
    countMatching isMetaCharset d2 = countMatching isMetaCharset d
      + (if (query isMetaCharset d).isSome then 0 else 1) := by
  rw [metaStage] at hok
  cases hadd : addedImportsGo cfg.addedImports d nid with
  | error e => rw [hadd] at hok; exact Except.noConfusion hok
  | ok r =>
    rw [hadd] at hok
    have hr := addedImportsGo_count cfg.addedImports d nid r.1 r.2 (by rw [hadd])
    by_cases hm : (query isMetaCharset d).isSome = true
    · simp only [hm, if_true] at hok ⊢
      cases hok
      rw [hr]
      omega
    · have hm2 : (query isMetaCharset d).isSome = false := Bool.not_eq_true _ |>.mp hm
      simp only [hm2, Bool.false_eq_true, if_false] at hok ⊢
      cases hpre : prependToFirstHead (Node.element r.2 "meta" [("charset", "UTF-8")] none []) r.1 with
      | error e => rw [hpre] at hok; exact Except.noConfusion hok
      | ok dm =>
        rw [hpre] at hok
        cases hok
        rw [prependToFirstHead] at hpre
        by_cases hhead : (query isHeadEl r.1).isSome = true
        · simp only [hhead, if_true, Except.ok.injEq] at hpre
          subst hpre
          have := count_modifyFirst isHeadEl
            (prependChild (Node.element r.2 "meta" [("charset", "UTF-8")] none []))
            isMetaCharset 1 isMetaCharset_withChildren
            (fun n hn => by
              rw [count_prepend_of_tag isMetaCharset isMetaCharset_withChildren
                "head" _ n hn, count_meta_metaNode]) r.1 hhead
          rw [this, hr]
        · have hh2 : (query isHeadEl r.1).isSome = false := Bool.not_eq_true _ |>.mp hhead
          rw [hh2] at hpre
          simp at hpre

theorem metaStage_present (cfg : Config) (d : Node) (nid : Nat)
    (hm : (query isMetaCharset d).isSome = true) :
    metaStage cfg d nid = addedImportsGo cfg.addedImports d nid := by
  rw [metaStage]
  cases hadd : addedImportsGo cfg.addedImports d nid with
  | error e => rfl
  | ok r => simp [hm]

theorem metaStage_absent_head (cfg : Config) (d : Node) (nid : Nat) (d2 : Node)
    (nid2 : Nat) (hm : (query isMetaCharset d).isSome = false)
    (hok : metaStage cfg d nid = .ok (d2, nid2)) :
    ∃ m rest, isMetaCharset m = true ∧ headChildrenOf d2 = m :: rest := by
  rw [metaStage] at hok
  cases hadd : addedImportsGo cfg.addedImports d nid with
  | error e => rw [hadd] at hok; exact Except.noConfusion hok
  | ok r =>
    rw [hadd] at hok
    simp only [hm, Bool.false_eq_true, if_false] at hok
    cases hpre : prependToFirstHead (Node.element r.2 "meta" [("charset", "UTF-8")] none []) r.1 with
    | error e => rw [hpre] at hok; exact Except.noConfusion hok
    | ok dm =>
      rw [hpre] at hok
      cases hok
      rw [prependToFirstHead] at hpre
      by_cases hhead : (query isHeadEl r.1).isSome = true
      · simp only [hhead, if_true, Except.ok.injEq] at hpre
        subst hpre
        refine ⟨Node.element r.2 "meta" [("charset", "UTF-8")] none [],
          headChildrenOf r.1, rfl, ?_⟩
        exact headChildren_prepend _ r.1 hhead
      · have hh2 : (query isHeadEl r.1).isSome = false := Bool.not_eq_true _ |>.mp hhead
        rw [hh2] at hpre
        simp at hpre

theorem isTextNode_shape (c : Node) (h : isTextNode c = true) : ∃ s, c = Node.text s := by
  cases c <;> first | exact ⟨_, rfl⟩ | exact Bool.noConfusion h

theorem modifyFirstList_all_text (p : Node → Bool) (f : Node → Node)
    (hpt : ∀ s, p (Node.text s) = false) (cs : List Node)
    (hall : cs.all isTextNode = true) : modifyFirstList p f cs = (cs, false) := by
  induction cs with
  | nil => rfl
  | cons c cs ih =>
    rw [List.all_cons, Bool.and_eq_true] at hall
    obtain ⟨s, rfl⟩ := isTextNode_shape c hall.1
    rw [modifyFirstList, modifyFirstGo]
    simp only [hpt s, Bool.false_eq_true, if_false]
    rw [ih hall.2]

theorem wfInl_element (i : Nat) (tg : String) (a : List (String × String))
    (hy : Option String) (cs : List Node) :
    wfInl (Node.element i tg a hy cs)
      = ((!(tg == "script") || cs.all isTextNode) &&
          ((!(tg == "link") || cs.isEmpty) && wfInlL cs)) := by
  rw [wfInl]
  cases (!(tg == "script") || cs.all isTextNode) <;>
    cases (!(tg == "link") || cs.isEmpty) <;> cases wfInlL cs <;> rfl

mutual

theorem wf_modifyFirst (p : Node → Bool) (f : Node → Node)
    (hpt : ∀ s, p (Node.text s) = false)
    (hf : ∀ n, p n = true → wfInl n = true → wfInl (f n) = true)
    (d : Node) (hwf : wfInl d = true) :
    wfInl (modifyFirst p f d) = true := by
  cases d with
  | element i tg a hy cs =>
    rw [modifyFirst, modifyFirstGo]
    by_cases hp : p (Node.element i tg a hy cs)
    · simp only [hp, if_true]
      exact hf _ hp hwf
    · simp only [hp, Bool.false_eq_true, if_false]
      rw [wfInl_element] at hwf
      rw [Bool.and_eq_true, Bool.and_eq_true] at hwf
      obtain ⟨hA, hB, hC⟩ := hwf
      by_cases hscript : (tg == "script") = true
      · have hall : cs.all isTextNode = true := by
          rw [hscript] at hA
          simpa using hA
        rw [modifyFirstList_all_text p f hpt cs hall]
        rw [wfInl_element, Bool.and_eq_true, Bool.and_eq_true]
        exact ⟨hA, hB, hC⟩
      · by_cases hlink : (tg == "link") = true
        · have hempty : cs.isEmpty = true := by
            rw [hlink] at hB
            simpa using hB
          have : cs = [] := by
            cases cs
            · rfl
            · simp [List.isEmpty] at hempty
          subst this
          rw [show modifyFirstList p f [] = ([], false) from rfl]
          rw [wfInl_element, Bool.and_eq_true, Bool.and_eq_true]
          exact ⟨hA, hB, hC⟩
        · rw [wfInl_element, Bool.and_eq_true, Bool.and_eq_true]
          refine ⟨?_, ?_, wfL_modifyFirstList p f hpt hf cs hC⟩
          · have : (tg == "script") = false := Bool.not_eq_true _ |>.mp hscript
            rw [this]
            rfl
          · have : (tg == "link") = false := Bool.not_eq_true _ |>.mp hlink
            rw [this]
            rfl
  | fragment cs =>
    rw [modifyFirst, modifyFirstGo]
    by_cases hp : p (Node.fragment cs)
    · simp only [hp, if_true]
      exact hf _ hp hwf
    · simp only [hp, Bool.false_eq_true, if_false]
      rw [wfInl] at hwf ⊢
      exact wfL_modifyFirstList p f hpt hf cs hwf
  | document cs =>
    rw [modifyFirst, modifyFirstGo]
    by_cases hp : p (Node.document cs)
    · simp only [hp, if_true]
      exact hf _ hp hwf
    · simp only [hp, Bool.false_eq_true, if_false]
      rw [wfInl] at hwf ⊢
      exact wfL_modifyFirstList p f hpt hf cs hwf
  | text str =>
    rw [modifyFirst, modifyFirstGo]
    by_cases hp : p (Node.text str)
    · simp only [hp, if_true]
      exact hf _ hp hwf
    · simp only [hp, Bool.false_eq_true, if_false]
      exact hwf
  | comment str =>
    rw [modifyFirst, modifyFirstGo]
    by_cases hp : p (Node.comment str)
    · simp only [hp, if_true]
      exact hf _ hp hwf
    · simp only [hp, Bool.false_eq_true, if_false]
      exact hwf

theorem wfL_modifyFirstList (p : Node → Bool) (f : Node → Node)
    (hpt : ∀ s, p (Node.text s) = false)
    (hf : ∀ n, p n = true → wfInl n = true → wfInl (f n) = true)
    (cs : List Node) (hwf : wfInlL cs = true) :
    wfInlL (modifyFirstList p f cs).1 = true := by
  cases cs with
  | nil => exact hwf
  | cons c cs =>
    rw [wfInlL, Bool.and_eq_true] at hwf
    rw [modifyFirstList]
    cases hgo : (modifyFirstGo p f c).2 with
    | true =>
      simp only [hgo, if_true]
      rw [wfInlL, Bool.and_eq_true]
      have := wf_modifyFirst p f hpt hf c hwf.1
      rw [modifyFirst] at this
      exact ⟨this, hwf.2⟩
    | false =>
      simp only [hgo, Bool.false_eq_true, if_false]
      rw [wfInlL, Bool.and_eq_true]
      exact ⟨hwf.1, wfL_modifyFirstList p f hpt hf cs hwf.2⟩

end

theorem wf_prependChild_of_tag (t : String) (hts : (t == "script") = false)
    (htl : (t == "link") = false) (c n : Node) (hwc : wfInl c = true)
    (hn : tagIs t n = true) (hwf : wfInl n = true) :
    wfInl (prependChild c n) = true := by
  obtain ⟨i, a, hy, cs, rfl⟩ := tagIs_element_shape t n hn
  rw [prependChild, childrenOf, withChildren]
  rw [wfInl_element] at hwf ⊢
  rw [Bool.and_eq_true, Bool.and_eq_true] at hwf
  obtain ⟨_, _, hC⟩ := hwf
  rw [hts, htl]
  simp only [Bool.not_false, Bool.true_or, Bool.true_and]
  rw [wfInlL, Bool.and_eq_true]
  exact ⟨hwc, hC⟩

theorem wf_addImportLink (h : String) (nid : Nat) : wfInl (addImportLink h nid) = true := rfl

theorem wf_metaNode (nid : Nat) :
    wfInl (Node.element nid "meta" [("charset", "UTF-8")] none []) = true := rfl

theorem isHeadEl_text_false (s : String) : isHeadEl (Node.text s) = false := rfl

theorem addedImportsGo_wf (l : List String) :
    ∀ (d : Node) (nid : Nat) (d1 : Node) (nid1 : Nat),
      wfInl d = true → addedImportsGo l d nid = .ok (d1, nid1) → wfInl d1 = true := by
  induction l with
  | nil =>
    intro d nid d1 nid1 hwf hok
    rw [addedImportsGo] at hok
    cases hok
    exact hwf
  | cons h rest ih =>
    intro d nid d1 nid1 hwf hok
    rw [addedImportsGo] at hok
    cases hpre : prependToFirstHead (addImportLink h nid) d with
    | error e => rw [hpre] at hok; exact Except.noConfusion hok
    | ok dx =>
      rw [hpre] at hok
      rw [prependToFirstHead] at hpre
      by_cases hhead : (query isHeadEl d).isSome = true
      · simp only [hhead, if_true, Except.ok.injEq] at hpre
        subst hpre
        refine ih _ _ _ _ ?_ hok
        refine wf_modifyFirst isHeadEl (prependChild (addImportLink h nid))
          isHeadEl_text_false ?_ d hwf
        intro n hn hwn
        exact wf_prependChild_of_tag "head" rfl rfl (addImportLink h nid) n
          (wf_addImportLink h nid) hn hwn
      · have hh2 : (query isHeadEl d).isSome = false := Bool.not_eq_true _ |>.mp hhead
        rw [hh2] at hpre
        simp at hpre

theorem metaStage_wf (cfg : Config) (d : Node) (nid : Nat) (d2 : Node) (nid2 : Nat)
    (hwf : wfInl d = true) (hok : metaStage cfg d nid = .ok (d2, nid2)) :
    wfInl d2 = true := by
  rw [metaStage] at hok
  cases hadd : addedImportsGo cfg.addedImports d nid with
  | error e => rw [hadd] at hok; exact Except.noConfusion hok
  | ok r =>
    rw [hadd] at hok
    have hwr : wfInl r.1 = true := addedImportsGo_wf cfg.addedImports d nid r.1 r.2 hwf (by rw [hadd])
    by_cases hm : (query isMetaCharset d).isSome = true
    · simp only [hm, if_true] at hok
      cases hok
      exact hwr
    · have hm2 : (query isMetaCharset d).isSome = false := Bool.not_eq_true _ |>.mp hm
      simp only [hm2, Bool.false_eq_true, if_false] at hok
      cases hpre : prependToFirstHead (Node.element r.2 "meta" [("charset", "UTF-8")] none []) r.1 with
      | error e => rw [hpre] at hok; exact Except.noConfusion hok
      | ok dm =>
        rw [hpre] at hok
        cases hok
        rw [prependToFirstHead] at hpre
        by_cases hhead : (query isHeadEl r.1).isSome = true
        · simp only [hhead, if_true, Except.ok.injEq] at hpre
          subst hpre
          refine wf_modifyFirst isHeadEl _ isHeadEl_text_false ?_ r.1 hwr
          intro n hn hwn
          exact wf_prependChild_of_tag "head" rfl rfl _ n (wf_metaNode r.2) hn hwn
        · have hh2 : (query isHeadEl r.1).isSome = false := Bool.not_eq_true _ |>.mp hhead
          rw [hh2] at hpre
          simp at hpre

theorem count_meta_zero_of_tag (i : Nat) (tg : String) (a : List (String × String))
    (hy : Option String) (cs : List Node) (htg : (tg == "meta") = false)
    (hcs : countMatchingL isMetaCharset cs = 0) :
    countMatching isMetaCharset (Node.element i tg a hy cs) = 0 := by
  rw [countMatching]
  have : isMetaCharset (Node.element i tg a hy cs) = false := by
    rw [isMetaCharset, tagIs, htg]
    rfl
  rw [this, hcs]
  rfl

theorem countL_meta_all_text (cs : List Node) (hall : cs.all isTextNode = true) :
    countMatchingL isMetaCharset cs = 0 := by
  induction cs with
  | nil => rfl
  | cons c cs ih =>
    rw [List.all_cons, Bool.and_eq_true] at hall
    obtain ⟨s, rfl⟩ := isTextNode_shape c hall.1
    rw [countMatchingL, ih hall.2]
    rfl

theorem editMatchingL_all_text (p : Node → Bool) (f : Node → Node)
    (hpt : ∀ s, p (Node.text s) = false) (cs : List Node)
    (hall : cs.all isTextNode = true) : editMatchingL p f cs = cs := by
  induction cs with
  | nil => rfl
  | cons c cs ih =>
    rw [List.all_cons, Bool.and_eq_true] at hall
    obtain ⟨s, rfl⟩ := isTextNode_shape c hall.1
    rw [editMatchingL, editMatching]
    simp only [hpt s, Bool.false_eq_true, if_false]
    rw [ih hall.2]

theorem isJsSrcScript_text_false (s : String) : isJsSrcScript (Node.text s) = false := rfl

theorem count_meta_scriptEdit (env : Env) (href : String) (i : Nat)
    (a : List (String × String)) (hy : Option String) (cs : List Node)
    (hall : cs.all isTextNode = true) :
    countMatching isMetaCharset
      (inlineScriptEdit env href (Node.element i "script" a hy cs)) = 0 := by
  have hzero : countMatching isMetaCharset (Node.element i "script" a hy cs) = 0 :=
    count_meta_zero_of_tag i "script" a hy cs rfl (countL_meta_all_text cs hall)
  rw [inlineScriptEdit]
  cases hga : getAttr (Node.element i "script" a hy cs) "src" with
  | none => exact hzero
  | some src =>
    by_cases hex : isExcludedHref env.cfg src = true
    · simp only [hex, if_true]
      exact hzero
    · have hex2 : isExcludedHref env.cfg src = false := Bool.not_eq_true _ |>.mp hex
      simp only [hex2, Bool.false_eq_true, if_false]
      cases hl : env.loader (env.urlResolve href src) with
      | none => exact hzero
      | some content =>
        by_cases hc : (content == "") = true
        · simp only [hc, if_true]
          exact hzero
        · have hc2 : (content == "") = false := Bool.not_eq_true _ |>.mp hc
          simp only [hc2, Bool.false_eq_true, if_false]
          rw [removeAttr, setTextContentStr, withChildren]
          exact count_meta_zero_of_tag i "script" _ hy _ rfl (by rfl)

mutual

theorem count_meta_inlineScripts (env : Env) (href : String) (d : Node)
    (hwf : wfInl d = true) :
    countMatching isMetaCharset
        (editMatching isJsSrcScript (inlineScriptEdit env href) d)
      = countMatching isMetaCharset d := by
  cases d with
  | element i tg a hy cs =>
    rw [editMatching]
    by_cases hp : isJsSrcScript (Node.element i tg a hy cs) = true
    · simp only [hp, if_true]
      have htag : (tg == "script") = true := by
        rw [isJsSrcScript, tagIs, Bool.and_eq_true] at hp
        exact hp.1
      have htg : tg = "script" := eq_of_beq htag
      subst htg
      rw [wfInl_element, Bool.and_eq_true, Bool.and_eq_true] at hwf
      have hall : cs.all isTextNode = true := by
        have := hwf.1
        simpa using this
      rw [count_meta_scriptEdit env href i a hy cs hall]
      rw [count_meta_zero_of_tag i "script" a hy cs rfl (countL_meta_all_text cs hall)]
    · simp only [hp, Bool.false_eq_true, if_false]
      rw [wfInl_element, Bool.and_eq_true, Bool.and_eq_true] at hwf
      rw [countMatching, countMatching,
        countL_meta_inlineScriptsL env href cs hwf.2.2]
      have : isMetaCharset (Node.element i tg a hy
          (editMatchingL isJsSrcScript (inlineScriptEdit env href) cs))
          = isMetaCharset (Node.element i tg a hy cs) := by
        have h1 := isMetaCharset_withChildren (Node.element i tg a hy cs)
          (editMatchingL isJsSrcScript (inlineScriptEdit env href) cs)
        have h2 := isMetaCharset_withChildren (Node.element i tg a hy cs) cs
        rw [withChildren] at h1 h2
        rw [h1, h2]
      rw [this]
  | fragment cs =>
    rw [editMatching]
    have hp : isJsSrcScript (Node.fragment cs) = false := rfl
    simp only [hp, Bool.false_eq_true, if_false]
    rw [wfInl] at hwf
    rw [countMatching, countMatching, countL_meta_inlineScriptsL env href cs hwf]
    rfl
  | document cs =>
    rw [editMatching]
    have hp : isJsSrcScript (Node.document cs) = false := rfl
    simp only [hp, Bool.false_eq_true, if_false]
    rw [wfInl] at hwf
    rw [countMatching, countMatching, countL_meta_inlineScriptsL env href cs hwf]
    rfl
  | text s =>
    rw [editMatching]
    simp only [isJsSrcScript_text_false, Bool.false_eq_true, if_false]
  | comment s =>
    rw [editMatching]
    have hp : isJsSrcScript (Node.comment s) = false := rfl
    simp only [hp, Bool.false_eq_true, if_false]

theorem countL_meta_inlineScriptsL (env : Env) (href : String) (cs : List Node)
    (hwf : wfInlL cs = true) :
    countMatchingL isMetaCharset
        (editMatchingL isJsSrcScript (inlineScriptEdit env href) cs)
      = countMatchingL isMetaCharset cs := by
  cases cs with
  | nil => rfl
  | cons c cs =>
    rw [wfInlL, Bool.and_eq_true] at hwf
    rw [editMatchingL, countMatchingL, countMatchingL,
      count_meta_inlineScripts env href c hwf.1,
      countL_meta_inlineScriptsL env href cs hwf.2]

end

theorem wf_scriptEdit (env : Env) (href : String) (i : Nat)
    (a : List (String × String)) (hy : Option String) (cs : List Node)
    (hwf : wfInl (Node.element i "script" a hy cs) = true) :
    wfInl (inlineScriptEdit env href (Node.element i "script" a hy cs)) = true := by
  rw [inlineScriptEdit]
  cases hga : getAttr (Node.element i "script" a hy cs) "src" with
  | none => exact hwf
  | some src =>
    by_cases hex : isExcludedHref env.cfg src = true
    · simp only [hex, if_true]
      exact hwf
    · have hex2 : isExcludedHref env.cfg src = false := Bool.not_eq_true _ |>.mp hex
      simp only [hex2, Bool.false_eq_true, if_false]
      cases hl : env.loader (env.urlResolve href src) with
      | none => exact hwf
      | some content =>
        by_cases hc : (content == "") = true
        · simp only [hc, if_true]
          exact hwf
        · have hc2 : (content == "") = false := Bool.not_eq_true _ |>.mp hc
          simp only [hc2, Bool.false_eq_true, if_false]
          rw [removeAttr, setTextContentStr, withChildren]
          rw [wfInl_element]
          rfl

mutual

theorem wf_inlineScripts (env : Env) (href : String) (d : Node)
    (hwf : wfInl d = true) :
    wfInl (editMatching isJsSrcScript (inlineScriptEdit env href) d) = true := by
  cases d with
  | element i tg a hy cs =>
    rw [editMatching]
    by_cases hp : isJsSrcScript (Node.element i tg a hy cs) = true
    · simp only [hp, if_true]
      have htag : (tg == "script") = true := by
        rw [isJsSrcScript, tagIs, Bool.and_eq_true] at hp
        exact hp.1
      have htg : tg = "script" := eq_of_beq htag
      subst htg
      exact wf_scriptEdit env href i a hy cs hwf
    · simp only [hp, Bool.false_eq_true, if_false]
      rw [wfInl_element, Bool.and_eq_true, Bool.and_eq_true] at hwf
      obtain ⟨hA, hB, hC⟩ := hwf
      by_cases hscript : (tg == "script") = true
      · have hall : cs.all isTextNode = true := by
          rw [hscript] at hA
          simpa using hA
        rw [editMatchingL_all_text isJsSrcScript (inlineScriptEdit env href)
          isJsSrcScript_text_false cs hall]
        rw [wfInl_element, Bool.and_eq_true, Bool.and_eq_true]
        exact ⟨hA, hB, hC⟩
      · by_cases hlink : (tg == "link") = true
        · have hempty : cs.isEmpty = true := by
            rw [hlink] at hB
            simpa using hB
          have : cs = [] := by
            cases cs
            · rfl
            · simp [List.isEmpty] at hempty
          subst this
          rw [show editMatchingL isJsSrcScript (inlineScriptEdit env href) [] = [] from rfl]
          rw [wfInl_element, Bool.and_eq_true, Bool.and_eq_true]
          exact ⟨hA, hB, hC⟩
        · rw [wfInl_element, Bool.and_eq_true, Bool.and_eq_true]
          refine ⟨?_, ?_, wfL_inlineScriptsL env href cs hC⟩
          · have : (tg == "script") = false := Bool.not_eq_true _ |>.mp hscript
            rw [this]
            rfl
          · have : (tg == "link") = false := Bool.not_eq_true _ |>.mp hlink
            rw [this]
            rfl
  | fragment cs =>
    rw [editMatching]
    have hp : isJsSrcScript (Node.fragment cs) = false := rfl
    simp only [hp, Bool.false_eq_true, if_false]
    rw [wfInl] at hwf
    rw [wfInl]
    exact wfL_inlineScriptsL env href cs hwf
  | document cs =>
    rw [editMatching]
    have hp : isJsSrcScript (Node.document cs) = false := rfl
    simp only [hp, Bool.false_eq_true, if_false]
    rw [wfInl] at hwf
    rw [wfInl]
    exact wfL_inlineScriptsL env href cs hwf
  | text s =>
    rw [editMatching]
    simp only [isJsSrcScript_text_false, Bool.false_eq_true, if_false]
    exact hwf
  | comment s =>
    rw [editMatching]
    have hp : isJsSrcScript (Node.comment s) = false := rfl
    simp only [hp, Bool.false_eq_true, if_false]
    exact hwf

theorem wfL_inlineScriptsL (env : Env) (href : String) (cs : List Node)
    (hwf : wfInlL cs = true) :
    wfInlL (editMatchingL isJsSrcScript (inlineScriptEdit env href) cs) = true := by
  cases cs with
  | nil => exact hwf
  | cons c cs =>
    rw [wfInlL, Bool.and_eq_true] at hwf
    rw [editMatchingL, wfInlL, Bool.and_eq_true]
    exact ⟨wf_inlineScripts env href c hwf.1, wfL_inlineScriptsL env href cs hwf.2⟩

end

theorem countL_meta_append (l1 l2 : List Node) :
    countMatchingL isMetaCharset (l1 ++ l2)
      = countMatchingL isMetaCharset l1 + countMatchingL isMetaCharset l2 := by
  induction l1 with
  | nil => rw [List.nil_append, countMatchingL]; omega
  | cons c l1 ih =>
    rw [List.cons_append, countMatchingL, countMatchingL, ih]
    omega

theorem countL_meta_reverse (l : List Node) :
    countMatchingL isMetaCharset l.reverse = countMatchingL isMetaCharset l := by
  induction l with
  | nil => rfl
  | cons c l ih =>
    rw [List.reverse_cons, countL_meta_append, ih, countMatchingL, countMatchingL,
      countMatchingL]
    omega

mutual

theorem count_meta_removeComments (d : Node) :
    countMatching isMetaCharset (removeComments d)
      = countMatching isMetaCharset d := by
  cases d with
  | element i tg a hy cs =>
    rw [removeComments, countMatching, countMatching, countL_meta_removeCommentsL cs]
    have h1 := isMetaCharset_withChildren (Node.element i tg a hy cs) (removeCommentsL cs)
    have h2 := isMetaCharset_withChildren (Node.element i tg a hy cs) cs
    rw [withChildren] at h1 h2
    rw [h1, h2]
  | fragment cs =>
    rw [removeComments, countMatching, countMatching, countL_meta_removeCommentsL cs]
    rfl
  | document cs =>
    rw [removeComments, countMatching, countMatching, countL_meta_removeCommentsL cs]
    rfl
  | text s => rfl
  | comment s => rfl

theorem countL_meta_removeCommentsL (cs : List Node) :
    countMatchingL isMetaCharset (removeCommentsL cs)
      = countMatchingL isMetaCharset cs := by
  cases cs with
  | nil => rfl
  | cons c cs =>
    rw [removeCommentsL]
    by_cases hc : isCommentNode c = true
    · simp only [hc, if_true]
      obtain ⟨s, rfl⟩ : ∃ s, c = Node.comment s := by
        cases c <;> first | exact ⟨_, rfl⟩ | exact Bool.noConfusion hc
      rw [countMatchingL, countL_meta_removeCommentsL cs]
      have : countMatching isMetaCharset (Node.comment s) = 0 := rfl
      omega
    · have hc2 : isCommentNode c = false := Bool.not_eq_true _ |>.mp hc
      simp only [hc2, Bool.false_eq_true, if_false]
      rw [countMatchingL, countMatchingL, count_meta_removeComments c,
        countL_meta_removeCommentsL cs]

end

theorem fold_prepend_mono (cm : List (String × Node)) (ks : List String) :
    ∀ (d out : Node),
      ks.foldlM (fun d k =>
          match cmGet cm k with
          | some c => prependToFirstHead c d
          | none => Except.ok d) d = Except.ok out →
      countMatching isMetaCharset d ≤ countMatching isMetaCharset out := by
  induction ks with
  | nil =>
    intro d out hok
    simp only [List.foldlM_nil] at hok
    cases hok
    exact Nat.le_refl _
  | cons k ks ih =>
    intro d out hok
    rw [List.foldlM_cons] at hok
    cases hget : cmGet cm k with
    | none =>
      simp only [hget] at hok
      exact ih d out hok
    | some c =>
      simp only [hget] at hok
      cases hpre : prependToFirstHead c d with
      | error e =>
        rw [hpre] at hok
        exact Except.noConfusion hok
      | ok d1 =>
        rw [hpre] at hok
        have hok2 : List.foldlM (fun d k =>
            match cmGet cm k with
            | some c => prependToFirstHead c d
            | none => Except.ok d) d1 ks = Except.ok out := hok
        rw [prependToFirstHead] at hpre
        by_cases hhead : (query isHeadEl d).isSome = true
        · simp only [hhead, if_true, Except.ok.injEq] at hpre
          subst hpre
          refine Nat.le_trans ?_ (ih _ out hok2)
          have := count_modifyFirst isHeadEl (prependChild c) isMetaCharset
            (countMatching isMetaCharset c) isMetaCharset_withChildren
            (fun n hn => count_prepend_of_tag isMetaCharset isMetaCharset_withChildren
              "head" c n hn) d hhead
          omega
        · have hh2 : (query isHeadEl d).isSome = false := Bool.not_eq_true _ |>.mp hhead
          rw [hh2] at hpre
          simp at hpre

theorem stripComments_count_mono (d out : Node)
    (hok : stripCommentsStage d = .ok out) :
    countMatching isMetaCharset d ≤ countMatching isMetaCharset out := by
  have hok2 : (licenseKeysOf d).foldlM (fun x k =>
      match cmGet (commentMapOf d) k with
      | some c => prependToFirstHead c x
      | none => Except.ok x) (removeComments d) = Except.ok out := hok
  have := fold_prepend_mono (commentMapOf d) (licenseKeysOf d) (removeComments d) out hok2
  rw [count_meta_removeComments d] at this
  exact this

theorem isMetaCharset_fragment (cs : List Node) :
    isMetaCharset (Node.fragment cs) = false := rfl

theorem isMetaCharset_document (cs : List Node) :
    isMetaCharset (Node.document cs) = false := rfl

theorem count_meta_styleTemplate (nid : Nat) (styles : List Node)
    (hst : countMatchingL isMetaCharset styles = 0) :
    countMatching isMetaCharset
      (Node.element nid "template" [] none [Node.fragment styles.reverse]) = 0 := by
  refine count_meta_zero_of_tag nid "template" [] none _ rfl ?_
  rw [countMatchingL, countMatching, countL_meta_reverse, hst]
  rfl

theorem count_meta_withChildren_prepend (c0 : Node) (styles : List Node)
    (hst : countMatchingL isMetaCharset styles = 0) :
    countMatching isMetaCharset (withChildren c0 (styles.reverse ++ childrenOf c0))
      = countMatching isMetaCharset c0 := by
  cases c0 with
  | element j tg2 a2 hy2 cs0 =>
    rw [childrenOf, withChildren, countMatching, countMatching, countL_meta_append,
      countL_meta_reverse, hst]
    have h1 := isMetaCharset_withChildren (Node.element j tg2 a2 hy2 cs0)
      (styles.reverse ++ cs0)
    have h2 := isMetaCharset_withChildren (Node.element j tg2 a2 hy2 cs0) cs0
    rw [withChildren] at h1 h2
    rw [h1, h2]
    omega
  | fragment cs0 =>
    rw [childrenOf, withChildren, countMatching, countMatching, countL_meta_append,
      countL_meta_reverse, hst]
    simp only [isMetaCharset_fragment]
    omega
  | document cs0 =>
    rw [childrenOf, withChildren, countMatching, countMatching, countL_meta_append,
      countL_meta_reverse, hst]
    simp only [isMetaCharset_document]
    omega
  | text s => rfl
  | comment s => rfl

theorem attachStyles_count (dm : Node) (styles : List Node) (nid : Nat)
    (res : Node × Nat) (hst : countMatchingL isMetaCharset styles = 0)
    (hok : attachStyles dm styles nid = .ok res) :
    countMatching isMetaCharset res.1 = countMatching isMetaCharset dm := by
  rw [attachStyles] at hok
  by_cases he : styles.isEmpty = true
  · simp only [he, if_true] at hok
    cases hok
    rfl
  · have he2 : styles.isEmpty = false := Bool.not_eq_true _ |>.mp he
    simp only [he2, Bool.false_eq_true, if_false] at hok
    cases hq : query isTemplateEl dm with
    | none =>
      simp only [hq] at hok
      cases hok
      have htpl := count_meta_styleTemplate nid styles hst
      cases dm with
      | element i tg a hy cs =>
        rw [appendChild, childrenOf, withChildren, countMatching, countMatching,
          countL_meta_append, countMatchingL, countMatchingL, htpl]
        have h1 := isMetaCharset_withChildren (Node.element i tg a hy cs)
          (cs ++ [Node.element nid "template" [] none [Node.fragment styles.reverse]])
        have h2 := isMetaCharset_withChildren (Node.element i tg a hy cs) cs
        rw [withChildren] at h1 h2
        rw [h1, h2]
        omega
      | fragment cs =>
        rw [appendChild, childrenOf, withChildren, countMatching, countMatching,
          countL_meta_append, countMatchingL, countMatchingL, htpl]
        simp only [isMetaCharset_fragment]
        omega
      | document cs =>
        rw [appendChild, childrenOf, withChildren, countMatching, countMatching,
          countL_meta_append, countMatchingL, countMatchingL, htpl]
        simp only [isMetaCharset_document]
        omega
      | text s => rfl
      | comment s => rfl
    | some t =>
      simp only [hq] at hok
      cases hch : childrenOf t with
      | nil =>
        simp only [hch] at hok
        exact Except.noConfusion hok
      | cons c0 rest =>
        simp only [hch] at hok
        cases hok
        have hfound : (query isTemplateEl dm).isSome = true := by rw [hq]; rfl
        have := count_modifyFirst isTemplateEl
          (fun tn => match childrenOf tn with
            | c0 :: rest => withChildren tn (withChildren c0 (styles.reverse ++ childrenOf c0) :: rest)
            | [] => tn) isMetaCharset 0 isMetaCharset_withChildren ?_ dm hfound
        · rw [this]
          omega
        · intro n' hn'
          cases hch2 : childrenOf n' with
          | nil => simp only [hch2]; omega
          | cons d0 drest =>
            simp only [hch2]
            obtain ⟨j, a2, hy2, cs2, rfl⟩ := tagIs_element_shape "template" n' hn'
            rw [childrenOf] at hch2
            subst hch2
            rw [withChildren, countMatching, countMatching, countMatchingL, countMatchingL,
              count_meta_withChildren_prepend d0 styles hst]
            have h1 := isMetaCharset_withChildren (Node.element j "template" a2 hy2 (d0 :: drest))
              (withChildren d0 (styles.reverse ++ childrenOf d0) :: drest)
            have h2 := isMetaCharset_withChildren (Node.element j "template" a2 hy2 (d0 :: drest))
              (d0 :: drest)
            rw [withChildren] at h1 h2
            rw [h1, h2]
            omega

theorem count_meta_buildStyle (env : Env) (href uri content media : String) (sid : Nat) :
    countMatching isMetaCharset (buildStyle env href uri content media sid) = 0 := rfl

theorem cssLinkOutcome_styles (env : Env) (href : String) (b : Bool) (n : Node)
    (nid : Nat) :
    (match (cssLinkOutcome env href b n nid).1 with
      | .keep => True
      | .replace s => countMatching isMetaCharset s = 0
      | .collect s => countMatching isMetaCharset s = 0) := by
  rw [cssLinkOutcome]
  cases getAttr n "href" with
  | none => trivial
  | some src =>
    by_cases hex : isExcludedHref env.cfg src = true
    · simp only [hex, if_true]
    · have hex2 : isExcludedHref env.cfg src = false := Bool.not_eq_true _ |>.mp hex
      simp only [hex2, Bool.false_eq_true, if_false]
      cases env.loader (env.urlResolve href src) with
      | none => trivial
      | some content =>
        by_cases hc : (content == "") = true
        · simp only [hc, if_true]
        · have hc2 : (content == "") = false := Bool.not_eq_true _ |>.mp hc
          simp only [hc2, Bool.false_eq_true, if_false]
          by_cases hpoly : polymerExternalStyle n = true
          · simp only [hpoly, if_true]
            cases b
            · simp only [Bool.false_eq_true, if_false]
            · simp only [if_true]
              exact count_meta_buildStyle env href _ content _ nid
          · have hp2 : polymerExternalStyle n = false := Bool.not_eq_true _ |>.mp hpoly
            simp only [hp2, Bool.false_eq_true, if_false]
            exact count_meta_buildStyle env href _ content _ nid

theorem isAllCssLink_tag (n : Node) (h : isAllCssLink n = true) :
    tagIs "link" n = true := by
  rw [isAllCssLink, Bool.or_eq_true, Bool.and_eq_true, Bool.and_eq_true,
    Bool.and_eq_true] at h
  rcases h with h | h
  · exact h.1.1
  · rw [polymerExternalStyle, Bool.and_eq_true, Bool.and_eq_true] at h
    exact h.1.1.1

mutual

theorem cssNode_count (env : Env) (href : String) (b : Bool) (n : Node) (nid : Nat)
    (res : Option Node × List Node × Nat) (hwf : wfInl n = true)
    (hok : cssNode env href b n nid = .ok res) :
    countMatchingL isMetaCharset res.2.1 = 0 ∧
    (∀ n', res.1 = some n' →
      countMatching isMetaCharset n' = countMatching isMetaCharset n) ∧
    (res.1 = none → countMatching isMetaCharset n = 0) := by
  cases n with
  | element i t a h cs =>
    rw [cssNode] at hok
    by_cases hAll : isAllCssLink (Node.element i t a h cs) = true
    · simp only [hAll, if_true] at hok
      have hcount0 : countMatching isMetaCharset (Node.element i t a h cs) = 0 := by
        have htag := isAllCssLink_tag _ hAll
        rw [tagIs] at htag
        have ht : t = "link" := eq_of_beq htag
        subst ht
        rw [wfInl_element, Bool.and_eq_true, Bool.and_eq_true] at hwf
        have hempty : cs.isEmpty = true := by
          have := hwf.2.1
          simpa using this
        have hnil : cs = [] := by
          cases cs
          · rfl
          · simp [List.isEmpty] at hempty
        subst hnil
        exact count_meta_zero_of_tag i "link" a h [] rfl rfl
      have hsty := cssLinkOutcome_styles env href b (Node.element i t a h cs) nid
      cases houtc : cssLinkOutcome env href b (Node.element i t a h cs) nid with
      | mk outc nid1 =>
        rw [houtc] at hsty
        simp only [houtc] at hok
        cases outc with
        | keep =>
          cases hok
          refine ⟨rfl, ?_, ?_⟩
          · intro n' hn'
            cases hn'
            rfl
          · intro hnone
            exact Option.noConfusion hnone
        | replace style =>
          cases hok
          refine ⟨rfl, ?_, ?_⟩
          · intro n' hn'
            cases hn'
            rw [hcount0]
            exact hsty
          · intro hnone
            exact Option.noConfusion hnone
        | collect style =>
          cases hok
          refine ⟨?_, ?_, ?_⟩
          · rw [countMatchingL, hsty, countMatchingL]
          · intro n' hn'
            exact Option.noConfusion hn'
          · intro _
            exact hcount0
    · have hAll2 : isAllCssLink (Node.element i t a h cs) = false :=
        Bool.not_eq_true _ |>.mp hAll
      simp only [hAll2, Bool.false_eq_true, if_false] at hok
      have hwfl : wfInlL cs = true := by
        rw [wfInl_element, Bool.and_eq_true, Bool.and_eq_true] at hwf
        exact hwf.2.2
      by_cases hDM : isDomModuleEl (Node.element i t a h cs) = true
      · simp only [hDM, if_true] at hok
        cases hch : cssChildren env href true cs nid with
        | error e => simp only [hch] at hok; exact Except.noConfusion hok
        | ok r =>
          simp only [hch] at hok
          have hr := cssChildren_count env href true cs nid r hwfl hch
          cases hatt : attachStyles (Node.element i t a h r.1) r.2.1 r.2.2 with
          | error e => simp only [hatt] at hok; exact Except.noConfusion hok
          | ok r2 =>
            simp only [hatt] at hok
            cases hok
            refine ⟨rfl, ?_, ?_⟩
            · intro n' hn'
              cases hn'
              have hac := attachStyles_count (Node.element i t a h r.1) r.2.1 r.2.2
                r2 hr.1 hatt
              rw [hac, countMatching, countMatching, hr.2]
              have h1 := isMetaCharset_withChildren (Node.element i t a h cs) r.1
              have h2 := isMetaCharset_withChildren (Node.element i t a h cs) cs
              rw [withChildren] at h1 h2
              rw [h1, h2]
            · intro hnone
              exact Option.noConfusion hnone
      · have hDM2 : isDomModuleEl (Node.element i t a h cs) = false :=
          Bool.not_eq_true _ |>.mp hDM
        simp only [hDM2, Bool.false_eq_true, if_false] at hok
        cases hch : cssChildren env href b cs nid with
        | error e => simp only [hch] at hok; exact Except.noConfusion hok
        | ok r =>
          simp only [hch] at hok
          cases hok
          have hr := cssChildren_count env href b cs nid r hwfl hch
          refine ⟨hr.1, ?_, ?_⟩
          · intro n' hn'
            cases hn'
            rw [countMatching, countMatching, hr.2]
            have h1 := isMetaCharset_withChildren (Node.element i t a h cs) r.1
            have h2 := isMetaCharset_withChildren (Node.element i t a h cs) cs
            rw [withChildren] at h1 h2
            rw [h1, h2]
          · intro hnone
            exact Option.noConfusion hnone
  | fragment cs =>
    rw [cssNode] at hok
    cases hch : cssChildren env href b cs nid with
    | error e => simp only [hch] at hok; exact Except.noConfusion hok
    | ok r =>
      simp only [hch] at hok
      cases hok
      rw [wfInl] at hwf
      have hr := cssChildren_count env href b cs nid r hwf hch
      refine ⟨hr.1, ?_, ?_⟩
      · intro n' hn'
        cases hn'
        rw [countMatching, countMatching, hr.2]
        simp only [isMetaCharset_fragment]
      · intro hnone
        exact Option.noConfusion hnone
  | document cs =>
    rw [cssNode] at hok
    cases hch : cssChildren env href b cs nid with
    | error e => simp only [hch] at hok; exact Except.noConfusion hok
    | ok r =>
      simp only [hch] at hok
      cases hok
      rw [wfInl] at hwf
      have hr := cssChildren_count env href b cs nid r hwf hch
      refine ⟨hr.1, ?_, ?_⟩
      · intro n' hn'
        cases hn'
        rw [countMatching, countMatching, hr.2]
        simp only [isMetaCharset_document]
      · intro hnone
        exact Option.noConfusion hnone
  | text s =>
    rw [cssNode] at hok
    cases hok
    refine ⟨rfl, ?_, ?_⟩
    · intro n' hn'
      cases hn'
      rfl
    · intro hnone
      exact Option.noConfusion hnone
  | comment s =>
    rw [cssNode] at hok
    cases hok
    refine ⟨rfl, ?_, ?_⟩
    · intro n' hn'
      cases hn'
      rfl
    · intro hnone
      exact Option.noConfusion hnone

theorem cssChildren_count (env : Env) (href : String) (b : Bool) (cs : List Node)
    (nid : Nat) (res : List Node × List Node × Nat) (hwf : wfInlL cs = true)
    (hok : cssChildren env href b cs nid = .ok res) :
    countMatchingL isMetaCharset res.2.1 = 0 ∧
    countMatchingL isMetaCharset res.1 = countMatchingL isMetaCharset cs := by
  cases cs with
  | nil =>
    rw [cssChildren] at hok
    cases hok
    exact ⟨rfl, rfl⟩
  | cons c cs =>
    rw [wfInlL, Bool.and_eq_true] at hwf
    rw [cssChildren] at hok
    cases hc : cssNode env href b c nid with
    | error e => simp only [hc] at hok; exact Except.noConfusion hok
    | ok r =>
      simp only [hc] at hok
      cases hcs : cssChildren env href b cs r.2.2 with
      | error e => simp only [hcs] at hok; exact Except.noConfusion hok
      | ok rs =>
        simp only [hcs] at hok
        cases hok
        have hrc := cssNode_count env href b c nid r hwf.1 hc
        have hrs := cssChildren_count env href b cs r.2.2 rs hwf.2 hcs
        constructor
        · rw [countL_meta_append, hrc.1, hrs.1]
        · cases hr1 : r.1 with
          | some c' =>
            have hthis := hrc.2.1 c' hr1
            show countMatchingL isMetaCharset (c' :: rs.1)
              = countMatchingL isMetaCharset (c :: cs)
            rw [countMatchingL, countMatchingL, hthis, hrs.2]
          | none =>
            have hthis := hrc.2.2 hr1
            show countMatchingL isMetaCharset rs.1
              = countMatchingL isMetaCharset (c :: cs)
            rw [countMatchingL, hrs.2, hthis]
            omega

end

theorem inlineCssStage_count (env : Env) (href : String) (d : Node) (nid : Nat)
    (res : Node × Nat) (hwf : wfInl d = true)
    (hok : inlineCssStage env href d nid = .ok res) :
    countMatching isMetaCharset res.1 = countMatching isMetaCharset d := by
  rw [inlineCssStage] at hok
  cases hc : cssNode env href false d nid with
  | error e => simp only [hc] at hok; exact Except.noConfusion hok
  | ok r =>
    simp only [hc] at hok
    have hrc := cssNode_count env href false d nid r hwf hc
    cases hr1 : r.1 with
    | some d' =>
      simp only [hr1] at hok
      cases hok
      exact hrc.2.1 d' hr1
    | none =>
      simp only [hr1] at hok
      cases hok
      rfl

/-- C6: every run of the pipeline tail that completes successfully on a well-formed flattened document yields an output containing a charset meta element; when the flattened document has none, the meta step inserts exactly one as the first child of head, and when one exists none is added. -/
theorem c6_meta_charset_insertion (env : Env) (href : String) (d : Node) (nid : Nat) (out : Node)
    (hwf : wfInl d = true)
    (hrun : postFlatten env href d nid = .ok out) :
    (query isMetaCharset out).isSome = true ∧
    (∀ d2 nid2, metaStage env.cfg d nid = .ok (d2, nid2) →
      countMatching isMetaCharset d2 = countMatching isMetaCharset d
        + (if (query isMetaCharset d).isSome then 0 else 1)) ∧
    ((query isMetaCharset d).isSome = false →
      ∀ d2 nid2, metaStage env.cfg d nid = .ok (d2, nid2) →
        ∃ m rest, isMetaCharset m = true ∧ headChildrenOf d2 = m :: rest) ∧
    ((query isMetaCharset d).isSome = true →
      metaStage env.cfg d nid = addedImportsGo env.cfg.addedImports d nid) := by
  refine ⟨?_, ?_, ?_, ?_⟩
  · rw [postFlatten] at hrun
    cases hmeta : metaStage env.cfg d nid with
    | error e => rw [hmeta] at hrun; exact Except.noConfusion hrun
    | ok r1 =>
      simp only [hmeta] at hrun
      have hw1 : wfInl r1.1 = true := metaStage_wf env.cfg d nid r1.1 r1.2 hwf (by rw [hmeta])
      have hc1 : 0 < countMatching isMetaCharset r1.1 := by
        have := metaStage_count env.cfg d nid r1.1 r1.2 (by rw [hmeta])
        by_cases hm : (query isMetaCharset d).isSome = true
        · have hd := (query_isSome_iff isMetaCharset d).mp hm
          simp only [hm, if_true] at this
          omega
        · have hm2 : (query isMetaCharset d).isSome = false := Bool.not_eq_true _ |>.mp hm
          simp only [hm2, Bool.false_eq_true, if_false] at this
          omega
      set d2 := if env.cfg.enableScriptInlining = true
        then inlineScriptsStage env href r1.1 else r1.1 with hd2
      have hw2 : wfInl d2 = true := by
        rw [hd2]
        by_cases hflag : env.cfg.enableScriptInlining = true
        · simp only [hflag, if_true]
          exact wf_inlineScripts env href r1.1 hw1
        · simp only [hflag, if_false]
          exact hw1
      have hc2 : 0 < countMatching isMetaCharset d2 := by
        rw [hd2]
        by_cases hflag : env.cfg.enableScriptInlining = true
        · simp only [hflag, if_true]
          rw [inlineScriptsStage, count_meta_inlineScripts env href r1.1 hw1]
          exact hc1
        · simp only [hflag, if_false]
          exact hc1
      by_cases hcssf : env.cfg.enableCssInlining = true
      · simp only [hcssf, if_true] at hrun
        cases hcss : inlineCssStage env href d2 r1.2 with
        | error e => rw [hcss] at hrun; exact Except.noConfusion hrun
        | ok r2 =>
          simp only [hcss] at hrun
          have hcr2 : 0 < countMatching isMetaCharset r2.1 := by
            rw [inlineCssStage_count env href d2 r1.2 r2 hw2 hcss]
            exact hc2
          by_cases hstrip : env.cfg.stripComments = true
          · simp only [hstrip, if_true] at hrun
            have := stripComments_count_mono r2.1 out hrun
            exact (query_isSome_iff isMetaCharset out).mpr (by omega)
          · simp only [hstrip, Bool.false_eq_true, if_false] at hrun
            have hout : r2.1 = out := by injection hrun
            rw [← hout]
            exact (query_isSome_iff isMetaCharset r2.1).mpr hcr2
      · simp only [hcssf, Bool.false_eq_true, if_false] at hrun
        by_cases hstrip : env.cfg.stripComments = true
        · simp only [hstrip, if_true] at hrun
          have := stripComments_count_mono d2 out hrun
          exact (query_isSome_iff isMetaCharset out).mpr (by omega)
        · simp only [hstrip, Bool.false_eq_true, if_false] at hrun
          have hout : d2 = out := by injection hrun
          rw [← hout]
          exact (query_isSome_iff isMetaCharset d2).mpr hc2
  · intro d2 nid2 hok
    exact metaStage_count env.cfg d nid d2 nid2 hok
  · intro hm d2 nid2 hok
    exact metaStage_absent_head env.cfg d nid d2 nid2 hm hok
  · intro hm
    exact metaStage_present env.cfg d nid hm

/-- Witness for C1 at a concrete duplicate edge. -/
theorem c1_witness :
    (isDuplicateImport sampleDupImport = true ∨
        isStrippedImport (sampleEnv sampleCfg).cfg sampleDupImport = true) ∧
      (processImports (sampleEnv sampleCfg) "index.html" true 99 sampleDoc
            [sampleDupImport] [4] 0 =
          processImports (sampleEnv sampleCfg) "index.html" true 99
            (removeEAN 4 none sampleDoc) [] [] 0 ∧
        (hasId 4 sampleDoc = false → occursId 4 (removeEAN 4 none sampleDoc) = false)) :=
  ⟨Or.inl (by rfl),
    c1_duplicate_or_stripped_elided (sampleEnv sampleCfg) "index.html" true 99 sampleDoc
      sampleDupImport [] [] 4 0 (Or.inl (by rfl))⟩

/-- Witness for C2 at a concrete legacy-dialect tree. -/
theorem c2_witness :
    hasOldPolymer oldPolymerTree.html = true ∧
      (flatten (sampleEnv plainCfg) oldPolymerTree true 0
          = .error (OLD_POLYMER ++ " File: "
              ++ (sampleEnv plainCfg).urlToPath (hrefStr oldPolymerTree.href)) ∧
        ∀ deps nid2 out,
          vulcanProcess (sampleEnv plainCfg) deps oldPolymerTree nid2 ≠ .ok out) :=
  ⟨by rfl, c2_old_polymer_aborts_run (sampleEnv plainCfg) oldPolymerTree true 0 (by rfl)⟩

/-- Witness for C3 at a concrete document with a duplicated license comment. -/
theorem c3_witness :
    (isCommentNode sampleCommentDoc = false ∧
        stripCommentsStage sampleCommentDoc = .ok sampleCommentOut) ∧
      ((∀ s, countMatching (commentWithData s) sampleCommentOut
          = if s ∈ licenseKeysOf sampleCommentDoc then 1 else 0) ∧
        (∀ s, s ∈ cmKeys (commentMapOf sampleCommentDoc) ↔
          ∃ c ∈ nodeWalkAll isCommentNode sampleCommentDoc, commentDataOf c = s) ∧
        headChildrenOf sampleCommentOut
          = (licenseKeysOf sampleCommentDoc).reverse.filterMap
              (cmGet (commentMapOf sampleCommentDoc))
            ++ headChildrenOf (removeComments sampleCommentDoc)) :=
  ⟨⟨by rfl, by rfl⟩,
    c3_strip_comments_license_dedup sampleCommentDoc sampleCommentOut (by rfl) (by rfl)⟩

/-- Witness for C4 at a concrete relocatable import of the main document. -/
theorem c4_witness :
    (isDuplicateImport sampleImportTree = false ∧
        isStrippedImport (sampleEnv plainCfg).cfg sampleImportTree = false ∧
        isExcludedImport (sampleEnv plainCfg).cfg sampleImportTree = false ∧
        isTemplatedIn 4 sampleDoc = false ∧
        flatten (sampleEnv plainCfg) sampleImportTree false 10 = .ok (c4Idoc, 10) ∧
        (10 == 4) = false) ∧
      ((descendantOf 99 4 sampleDoc = false →
          processImports (sampleEnv plainCfg) "index.html" true 99 sampleDoc
              [sampleImportTree] [4] 10 =
            processImports (sampleEnv plainCfg) "index.html" true 99
              (removeEAN 4 (some (hiddenWrap 10
                (mergedImportFragment c4Idoc c4Ih c4Ib))) sampleDoc) [] [] 11) ∧
        (descendantOf 99 4 sampleDoc = true →
          processImports (sampleEnv plainCfg) "index.html" true 99 sampleDoc
              [sampleImportTree] [4] 10 =
            processImports (sampleEnv plainCfg) "index.html" true 99
              (removeEAN 4 (some (mergedImportFragment c4Idoc c4Ih c4Ib)) sampleDoc)
              [] [] 10)) :=
  ⟨⟨by rfl, by rfl, by rfl, by rfl, by rfl, by rfl⟩,
    c4_hidden_wrapper_invariant (sampleEnv plainCfg) "index.html" 99 sampleDoc
      sampleImportTree [] [] 4 10 c4Idoc 10 (by rfl) (by rfl) (by rfl) (by rfl)
      (by rfl) (by rfl) c4Ih c4Ib (by rfl) (by rfl)⟩

/-- Witness for C5 at a concrete external script element. -/
theorem c5_witness :
    (isJsSrcScript sampleScriptNode = true ∧
        getAttr sampleScriptNode "src" = some "x.js") ∧
      ((isExcludedHref (sampleEnv plainCfg).cfg "x.js" = true →
          inlineScriptEdit (sampleEnv plainCfg) "index.html" sampleScriptNode
            = sampleScriptNode) ∧
        (isExcludedHref (sampleEnv plainCfg).cfg "x.js" = false →
          (sampleEnv plainCfg).loader
              ((sampleEnv plainCfg).urlResolve "index.html" "x.js") = none →
          inlineScriptEdit (sampleEnv plainCfg) "index.html" sampleScriptNode
            = sampleScriptNode) ∧
        (isExcludedHref (sampleEnv plainCfg).cfg "x.js" = false →
          (sampleEnv plainCfg).loader
              ((sampleEnv plainCfg).urlResolve "index.html" "x.js") = some "" →
          inlineScriptEdit (sampleEnv plainCfg) "index.html" sampleScriptNode
            = sampleScriptNode) ∧
        (∀ content, content ≠ "" →
          isExcludedHref (sampleEnv plainCfg).cfg "x.js" = false →
          (sampleEnv plainCfg).loader
              ((sampleEnv plainCfg).urlResolve "index.html" "x.js") = some content →
          inlineScriptEdit (sampleEnv plainCfg) "index.html" sampleScriptNode
            = setTextContentStr ((sampleEnv plainCfg).enc content)
                (removeAttr sampleScriptNode "src"))) :=
  ⟨⟨by rfl, by rfl⟩,
    c5_inline_scripts_contract (sampleEnv plainCfg) "index.html" sampleScriptNode
      "x.js" (by rfl) (by rfl)⟩

/-- Witness for C6 at a concrete flattened document without a charset meta. -/
theorem c6_witness :
    (wfInl sampleDoc = true ∧
        postFlatten (sampleEnv plainCfg) "index.html" sampleDoc 100 = .ok sampleMetaOut) ∧
      ((query isMetaCharset sampleMetaOut).isSome = true ∧
        (∀ d2 nid2, metaStage (sampleEnv plainCfg).cfg sampleDoc 100 = .ok (d2, nid2) →
          countMatching isMetaCharset d2 = countMatching isMetaCharset sampleDoc
            + (if (query isMetaCharset sampleDoc).isSome then 0 else 1)) ∧
        ((query isMetaCharset sampleDoc).isSome = false →
          ∀ d2 nid2, metaStage (sampleEnv plainCfg).cfg sampleDoc 100 = .ok (d2, nid2) →
            ∃ m rest, isMetaCharset m = true ∧ headChildrenOf d2 = m :: rest) ∧
        ((query isMetaCharset sampleDoc).isSome = true →
          metaStage (sampleEnv plainCfg).cfg sampleDoc 100
            = addedImportsGo (sampleEnv plainCfg).cfg.addedImports sampleDoc 100)) :=
  ⟨⟨by rfl, by rfl⟩,
    c6_meta_charset_insertion (sampleEnv plainCfg) "index.html" sampleDoc 100
      sampleMetaOut (by rfl) (by rfl)⟩

/-- Witness for C7 at a concrete exclusion-matched edge. -/
theorem c7_witness :
    (isDuplicateImport sampleVendorImport = false ∧
        isStrippedImport (sampleEnv sampleCfg).cfg sampleVendorImport = false ∧
        isExcludedImport (sampleEnv sampleCfg).cfg sampleVendorImport = true) ∧
      processImports (sampleEnv sampleCfg) "index.html" true 99 sampleDoc
          [sampleVendorImport] [4] 0 =
        processImports (sampleEnv sampleCfg) "index.html" true 99 sampleDoc [] [] 0 :=
  ⟨⟨by rfl, by rfl, by rfl⟩,
    c7_excluded_import_untouched (sampleEnv sampleCfg) "index.html" true 99 sampleDoc
      sampleVendorImport [] [] 4 0 (by rfl) (by rfl) (by rfl)⟩

/-- Witness for C8 at two configurations agreeing only on the pattern lists. -/
theorem c8_witness :
    (sampleCfg.excludes = altCfg.excludes ∧
        sampleCfg.stripExcludes = altCfg.stripExcludes) ∧
      (isExcludedHref sampleCfg "vendor/x.html" = isExcludedHref altCfg "vendor/x.html" ∧
        isStrippedImport sampleCfg sampleVendorImport
          = isStrippedImport altCfg sampleVendorImport) :=
  ⟨⟨rfl, rfl⟩,
    ⟨(c8_policy_matching_pure sampleCfg altCfg).1 "vendor/x.html" rfl,
      (c8_policy_matching_pure sampleCfg altCfg).2 sampleVendorImport rfl⟩⟩

/-- Witness for C9 at a concrete empty-href edge. -/
theorem c9_witness :
    ImportTree.href sampleEmptyHrefImport = some "" ∧
      processImports (sampleEnv plainCfg) "t" true 0 (Node.fragment [])
          [sampleEmptyHrefImport] [5] 3 =
        processImports (sampleEnv plainCfg) "t" true 0
          (removeEAN 5 none (Node.fragment [])) [] [] 3 :=
  ⟨rfl,
    (c9_empty_href_is_duplicate sampleEmptyHrefImport).2 (sampleEnv plainCfg) "t" true 0
      (Node.fragment []) [] [] 5 3 rfl⟩

end PolymerBundler
